import Mathlib

set_option maxRecDepth 100000

/-!
Verification of the Morse-Code transcoder (`morse_code.py`).

Strings are modelled as `List Char`; the Python string methods used by the
source (`split`, `splitlines`, `strip`, `upper`, `capitalize`, `replace`,
substring membership, `*` repetition) are given faithful executable models,
and Python dictionaries are modelled as insertion-ordered association lists
with unique keys, with assignment overwriting in place.
-/

namespace MorseSpec

/-- Strings are lists of characters. -/
abbrev Str := List Char

/-- A Lean string literal, in the character-list model. -/
def S (s : String) : Str := s.data

/-- A Python dictionary from strings to strings, as an insertion-ordered
association list whose keys are unique. -/
abbrev Dict := List (Str × Str)

/-- The whitespace characters recognised by Python's `str.split()` /
`str.strip()` (the ASCII ones plus the common Unicode ones). -/
def isSpaceChar (c : Char) : Bool :=
  c == ' ' || c == '\t' || c == '\n' || c == '\x0D' ||
  c == '\x0B' || c == '\x0C' || c == '\x1C' || c == '\x1D' || c == '\x1E' ||
  c == '\x85' || c == '\xA0' || c == '\u2028' || c == '\u2029'

/-- The single-character line boundaries of Python's `str.splitlines`
(`"\r\n"` pairs are handled separately). -/
def isLineBoundary (c : Char) : Bool :=
  c == '\n' || c == '\x0D' || c == '\x0B' || c == '\x0C' ||
  c == '\x1C' || c == '\x1D' || c == '\x1E' || c == '\x85' || c == '\u2028' || c == '\u2029'

/-- Python `list.pop()` guarded by `if line:`: drop the last element of a
non-empty list, keep `[]` unchanged. -/
def popLast (line : List Str) : List Str :=
  if line.isEmpty then line else line.dropLast

/-- Python `str.split(sep)` for a non-empty separator `sep`: cut at each
leftmost non-overlapping occurrence of `sep`, keeping empty pieces.
`acc` is the reversed current piece; `skip` counts separator characters
still to be consumed after a match. -/
def splitSepCore (sep : Str) : Str → Str → Nat → List Str
  | [], acc, _ => [acc.reverse]
  | c :: rest, acc, skip =>
    match skip with
    | n + 1 => splitSepCore sep rest acc n
    | 0 =>
      if sep.isPrefixOf (c :: rest) then
        acc.reverse :: splitSepCore sep rest [] (sep.length - 1)
      else splitSepCore sep rest (c :: acc) 0

/-- Python `str.split(sep)`.  (Python raises on an empty separator; the
validated profiles below never produce that call.) -/
def pySplitSep (sep s : Str) : List Str :=
  if sep = [] then [s] else splitSepCore sep s [] 0

/-- Python `str.replace(old, new)` for non-empty `old`. -/
def pyReplace (old new s : Str) : Str :=
  if old = [] then s else List.intercalate new (pySplitSep old s)

/-- Python `str.split()` with no argument: whitespace runs delimit the
pieces and empty pieces are dropped. -/
def pySplitWS (s : Str) : List Str :=
  (List.splitOnP isSpaceChar s).filter (fun w => !w.isEmpty)

/-- Python `str.strip()`. -/
def pyStrip (s : Str) : Str :=
  ((s.dropWhile isSpaceChar).reverse.dropWhile isSpaceChar).reverse

/-- Python `str.upper()` (ASCII letters; all inputs reasoned about below
stay in the ASCII range or are already upper-case). -/
def pyUpper (s : Str) : Str := s.map Char.toUpper

/-- Python `str.capitalize()`: first character upper-cased, every
following character lower-cased. -/
def pyCapitalize : Str → Str
  | [] => []
  | c :: rest => Char.toUpper c :: rest.map Char.toLower

/-- Fold each `"\r\n"` pair into a single `"\n"` (Python `splitlines`
treats the pair as one boundary; all other boundaries are single characters). -/
def normalizeCRLF : Str → Str
  | [] => []
  | '\x0D' :: '\n' :: rest => '\n' :: normalizeCRLF rest
  | c :: rest => c :: normalizeCRLF rest

/-- Worker for Python `str.splitlines` after `"\r\n"` normalization:
boundary characters cut, a trailing boundary adds no piece. -/
def pySplitlinesGo (acc : Str) : Str → List Str
  | [] => [acc.reverse]
  | c :: rest =>
    if isLineBoundary c then
      acc.reverse :: (if rest.isEmpty then [] else pySplitlinesGo [] rest)
    else pySplitlinesGo (c :: acc) rest

/-- Python `str.splitlines()`. -/
def pySplitlines (s : Str) : List Str :=
  if s.isEmpty then [] else pySplitlinesGo [] (normalizeCRLF s)

/-- Python `a in b` on strings: substring membership. -/
def isSubstrOf (a b : Str) : Bool :=
  b.tails.any (fun t => a.isPrefixOf t)

/-- Python `symbol * n` for a single-character string and an integer. -/
def repChar (c : Char) (n : Int) : Str := List.replicate n.toNat c

/-- Python `d[k] = v`: overwrite the value in place if the key exists,
otherwise append the new binding. -/
def dictAssign (d : Dict) (k v : Str) : Dict :=
  if d.any (fun kv => kv.1 == k) then
    d.map (fun kv => if kv.1 == k then (k, v) else kv)
  else d ++ [(k, v)]

/-- Python `{v: k for k, v in d.items()}`. -/
def dictInvert (d : Dict) : Dict :=
  d.foldl (fun acc kv => dictAssign acc kv.2 kv.1) []

/-- Python `d.update(e)`. -/
def dictUpdate (d e : Dict) : Dict :=
  e.foldl (fun acc kv => dictAssign acc kv.1 kv.2) d

/-- Python `d.get(k, dflt)` (all dictionaries built below have unique keys). -/
def dictGet (d : Dict) (k dflt : Str) : Str :=
  match d.find? (fun kv => kv.1 == k) with
  | some kv => kv.2
  | none => dflt

/-- Python `k in d.keys()`. -/
def dictHasKey (d : Dict) (k : Str) : Bool :=
  d.any (fun kv => kv.1 == k)

/-- `MorseCode._table_of_letters`. -/
def _table_of_letters : Dict := [
  (S ("A"), S (".-")),
  (S ("B"), S ("-...")),
  (S ("C"), S ("-.-.")),
  (S ("D"), S ("-..")),
  (S ("E"), S (".")),
  (S ("F"), S ("..-.")),
  (S ("G"), S ("--.")),
  (S ("H"), S ("....")),
  (S ("I"), S ("..")),
  (S ("J"), S (".---")),
  (S ("K"), S ("-.-")),
  (S ("L"), S (".-..")),
  (S ("M"), S ("--")),
  (S ("N"), S ("-.")),
  (S ("O"), S ("---")),
  (S ("P"), S (".--.")),
  (S ("Q"), S ("--.-")),
  (S ("R"), S (".-.")),
  (S ("S"), S ("...")),
  (S ("T"), S ("-")),
  (S ("U"), S ("..-")),
  (S ("V"), S ("...-")),
  (S ("W"), S (".--")),
  (S ("X"), S ("-..-")),
  (S ("Y"), S ("-.--")),
  (S ("Z"), S ("--.."))
]

/-- `MorseCode._table_of_numbers`. -/
def _table_of_numbers : Dict := [
  (S ("1"), S (".----")),
  (S ("2"), S ("..---")),
  (S ("3"), S ("...--")),
  (S ("4"), S ("....-")),
  (S ("5"), S (".....")),
  (S ("6"), S ("-....")),
  (S ("7"), S ("--...")),
  (S ("8"), S ("---..")),
  (S ("9"), S ("----.")),
  (S ("0"), S ("-----"))
]

/-- `MorseCode._table_of_punctuation`. -/
def _table_of_punctuation : Dict := [
  (S ("."), S (".-.-.-")),
  (S (","), S ("--..--")),
  (S ("?"), S ("..--..")),
  (S ("`"), S (".----.")),
  (S ("!"), S ("-.-.--")),
  (S ("/"), S ("-..-.")),
  (S ("("), S ("-.--.")),
  (S (")"), S ("-.--.-")),
  (S ("&"), S (".-...")),
  (S (":"), S ("---...")),
  (S (";"), S ("-.-.-.")),
  (S ("="), S ("-...-")),
  (S ("+"), S (".-.-.")),
  (S ("-"), S ("-....-")),
  (S ("_"), S ("..--.-")),
  (S ("\""), S (".-..-.")),
  (S ("$"), S ("...-..-")),
  (S ("@"), S (".--.-."))
]

/-- `MorseCode._table_of_non_latin`. -/
def _table_of_non_latin : Dict := [
  (S ("À"), S (".--.-")),
  (S ("Ä"), S (".-.-")),
  (S ("Å"), S (".--.-")),
  (S ("Ą"), S (".-.-")),
  (S ("Æ"), S (".-.-")),
  (S ("Ć"), S ("-.-..")),
  (S ("Ĉ"), S ("-.-..")),
  (S ("Ç"), S ("-.-..")),
  (S ("CH"), S ("----")),
  (S ("Đ"), S ("..-..")),
  (S ("Ð"), S ("..--.")),
  (S ("É"), S ("..-..")),
  (S ("È"), S (".-..-")),
  (S ("Ę"), S ("..-..")),
  (S ("Ĝ"), S ("--.-.")),
  (S ("Ĥ"), S ("----")),
  (S ("Ĵ"), S (".---.")),
  (S ("Ł"), S (".-..-")),
  (S ("Ń"), S ("--.--")),
  (S ("Ñ"), S ("--.--")),
  (S ("Ó"), S ("---.")),
  (S ("Ö"), S ("---.")),
  (S ("Ø"), S ("---.")),
  (S ("Ś"), S ("...-...")),
  (S ("Ŝ"), S ("...-.")),
  (S ("Š"), S ("----")),
  (S ("Þ"), S (".--..")),
  (S ("Ü"), S ("..--")),
  (S ("Ŭ"), S ("..--")),
  (S ("Ź"), S ("--..-.")),
  (S ("Ż"), S ("--..-"))
]

/-- `MorseCode._table_of_prosigns`. -/
def _table_of_prosigns : Dict := [
  (S ("[End of work]"), S ("...-.-")),
  (S ("[Error]"), S ("........")),
  (S ("[General invitation to transmit]"), S ("-.-")),
  (S ("[Starting signal]"), S ("-.-.-")),
  (S ("[New message follows]"), S (".-.-.")),
  (S ("[Verified]"), S ("...-.")),
  (S ("[Wait]"), S (".-..."))
]

/-- `MorseCode.STRING_TYPE`. -/
inductive STRING_TYPE | TEXT | MORSE_CODE | MORSE_SIGNAL
deriving DecidableEq

/-- `MorseCode._replace_dots_and_dashes`, acting on a table for the
configured `dot`/`dash` literals (single characters, so Python's
`str.replace` is a character map here). -/
def _replace_dots_and_dashes (dot dash : Char) (table : Dict) : Dict :=
  if dot ≠ '-' then
    let codes := table.map (fun kv => (kv.1, kv.2.map (fun c => if c = '.' then dot else c)))
    codes.map (fun kv => (kv.1, kv.2.map (fun c => if c = '-' then dash else c)))
  else if dash ≠ '.' then
    let codes := table.map (fun kv => (kv.1, kv.2.map (fun c => if c = '-' then dash else c)))
    codes.map (fun kv => (kv.1, kv.2.map (fun c => if c = '.' then dot else c)))
  else
    let codes := table.map (fun kv => (kv.1, kv.2.map (fun c => if c = '.' then '*' else c)))
    let codes := codes.map (fun kv => (kv.1, kv.2.map (fun c => if c = '-' then dash else c)))
    codes.map (fun kv => (kv.1, kv.2.map (fun c => if c = '*' then dot else c)))

/-- The layered union `dict(**non_latin?, **punctuation?, **numbers,
**letters)` built by `_init_encoding` (its keys are pairwise distinct). -/
def baseCodes (includeNonLatin includePunctuation : Bool) : Dict :=
  (if includeNonLatin then _table_of_non_latin else []) ++
  (if includePunctuation then _table_of_punctuation else []) ++
  _table_of_numbers ++ _table_of_letters

/-- `MorseCode._init_encoding`: the layered union rendered into the
configured dot/dash literals. -/
def _init_encoding (includeNonLatin includePunctuation : Bool) (dot dash : Char) : Dict :=
  _replace_dots_and_dashes dot dash (baseCodes includeNonLatin includePunctuation)

/-- `MorseCode._init_decoding`: invert the encoding table; when prosigns
are included, start from the inverted prosigns and `update` with the
inverted encoding table. -/
def _init_decoding (includeProsigns : Bool) (dot dash : Char) (encoding : Dict) : Dict :=
  let inverted_codes := dictInvert encoding
  if includeProsigns then
    let prosigns := _replace_dots_and_dashes dot dash _table_of_prosigns
    let inverted_prosigns := dictInvert prosigns
    dictUpdate inverted_prosigns inverted_codes
  else inverted_codes

/-- The state of a `MorseCode` instance. -/
structure MorseCode where
  dot : Char
  dash : Char
  bit_gap : Str
  character_gap : Str
  word_gap : Str
  signal_on : Char
  signal_off : Char
  dot_timing : Int
  dash_timing : Int
  bit_timing : Int
  character_timing : Int
  word_timing : Int
  UNKNOWN_CHARACTER : Str
  PARAGRAPHS_IN_MORSE_CODE : Bool
  INCLUDE_PUNCTUATION : Bool
  INCLUDE_NON_LATIN : Bool
  INCLUDE_PROSIGNS : Bool
  encoding : Dict
  decoding : Dict

/-- The encoding table of the default-constructed instance. -/
def defaultEncoding : Dict := _init_encoding true true '.' '-'

/-- The decoding table of the default-constructed instance. -/
def defaultDecoding : Dict := _init_decoding true '.' '-' defaultEncoding

/-- The default-constructed `MorseCode()` instance. -/
def MC : MorseCode :=
  { dot := '.', dash := '-', bit_gap := [], character_gap := [' '],
    word_gap := [' ', ' ', ' '], signal_on := '█', signal_off := '_',
    dot_timing := 1, dash_timing := 3, bit_timing := 1,
    character_timing := 3, word_timing := 7,
    UNKNOWN_CHARACTER := ['\uFFFD'], PARAGRAPHS_IN_MORSE_CODE := true,
    INCLUDE_PUNCTUATION := true, INCLUDE_NON_LATIN := true, INCLUDE_PROSIGNS := true,
    encoding := defaultEncoding, decoding := defaultDecoding }

/-- `MorseCode.__init__`: validate every parameter with the source's
assertions, in source order, and build the instance; the first failed
assertion aborts construction with its message. -/
def mkMorseCode (dot dash bit_gap character_gap word_gap signal_on signal_off : Str)
    (dot_timing dash_timing bit_timing character_timing word_timing : Int) :
    Except Str MorseCode :=
  if dot.length ≠ 1 then
    .error (S ("Provided dot-parameter expected to be a single character"))
  else if dash.length ≠ 1 then
    .error (S ("Provided dash-parameter expected to be a single character"))
  else if dot = dash then
    .error (S ("Provided dot- and dash-parameters expected to be different"))
  else if isSubstrOf character_gap bit_gap then
    .error (S ("Provided character_gap-parameter can not be part of bit_gap-string"))
  else if isSubstrOf word_gap bit_gap then
    .error (S ("Provided word_gap-parameter can not be part of bit_gap-string"))
  else if isSubstrOf word_gap character_gap then
    .error (S ("Provided word_gap-parameter can not be part of character_gap-string"))
  else if signal_on.length ≠ 1 then
    .error (S ("Provided signal_on-parameter expected to be a single character"))
  else if signal_off.length ≠ 1 then
    .error (S ("Provided signal_off-parameter expected to be a single character"))
  else if signal_on = signal_off then
    .error (S ("Provided signal_on- and signal_off-parameters expected to be different"))
  else if dot_timing ≤ 0 then
    .error (S ("Provided dot_timing-parameter expected to be a positive number"))
  else if dash_timing ≤ dot_timing then
    .error (S ("Provided dash_timing-parameter expected to be longer than dot_timing"))
  else if bit_timing ≤ 0 then
    .error (S ("Provided bit_timing-parameter expected to be a positive number"))
  else if character_timing ≤ bit_timing then
    .error (S ("Provided character_timing-parameter expected to be longer than bit_timing"))
  else if word_timing ≤ character_timing then
    .error (S ("Provided word_timing-parameter expected to be longer than character_timing"))
  else
    let d := dot.headI
    let da := dash.headI
    let enc := _init_encoding true true d da
    .ok { dot := d, dash := da, bit_gap := bit_gap, character_gap := character_gap,
          word_gap := word_gap, signal_on := signal_on.headI, signal_off := signal_off.headI,
          dot_timing := dot_timing, dash_timing := dash_timing, bit_timing := bit_timing,
          character_timing := character_timing, word_timing := word_timing,
          UNKNOWN_CHARACTER := ['\uFFFD'], PARAGRAPHS_IN_MORSE_CODE := true,
          INCLUDE_PUNCTUATION := true, INCLUDE_NON_LATIN := true, INCLUDE_PROSIGNS := true,
          encoding := enc, decoding := _init_decoding true d da enc }

/-- A dynamically-typed Python argument, for modelling the runtime type
assertions of the configuration setters. -/
inductive PyVal | vbool (b : Bool) | vstr (s : Str) | vint (n : Int) | vnone

/-- Whether a `PyVal` is a Python `bool`. -/
def PyVal.isBoolVal : PyVal → Bool
  | .vbool _ => true
  | _ => false

/-- Whether a `PyVal` is a Python `str`. -/
def PyVal.isStrVal : PyVal → Bool
  | .vstr _ => true
  | _ => false

/-- `MorseCode.set_unknown_character`. -/
def set_unknown_character (m : MorseCode) (v : PyVal) : MorseCode × Option Str :=
  match v with
  | .vstr u => ({ m with UNKNOWN_CHARACTER := u }, none)
  | _ => (m, some (S ("Provided unknown_character-parameter expected to be a string")))

/-- `MorseCode.set_paragraphs_in_morse_code`. -/
def set_paragraphs_in_morse_code (m : MorseCode) (v : PyVal) : MorseCode × Option Str :=
  match v with
  | .vbool b => ({ m with PARAGRAPHS_IN_MORSE_CODE := b }, none)
  | _ => (m, some (S ("Provided paragraphs_in_morse_code-parameter expected to be boolean")))

/-- `MorseCode.set_include_punctuation`: set the flag, then rebuild the
encoding table and then the decoding table. -/
def set_include_punctuation (m : MorseCode) (v : PyVal) : MorseCode × Option Str :=
  match v with
  | .vbool b =>
    let m1 := { m with INCLUDE_PUNCTUATION := b }
    let m2 := { m1 with encoding := _init_encoding m1.INCLUDE_NON_LATIN m1.INCLUDE_PUNCTUATION m1.dot m1.dash }
    let m3 := { m2 with decoding := _init_decoding m2.INCLUDE_PROSIGNS m2.dot m2.dash m2.encoding }
    (m3, none)
  | _ => (m, some (S ("Provided include_punctuation-parameter expected to be boolean")))

/-- `MorseCode.set_include_non_latin`. -/
def set_include_non_latin (m : MorseCode) (v : PyVal) : MorseCode × Option Str :=
  match v with
  | .vbool b =>
    let m1 := { m with INCLUDE_NON_LATIN := b }
    let m2 := { m1 with encoding := _init_encoding m1.INCLUDE_NON_LATIN m1.INCLUDE_PUNCTUATION m1.dot m1.dash }
    let m3 := { m2 with decoding := _init_decoding m2.INCLUDE_PROSIGNS m2.dot m2.dash m2.encoding }
    (m3, none)
  | _ => (m, some (S ("Provided include_non_latin-parameter expected to be boolean")))

/-- `MorseCode.set_include_prosigns`: set the flag, then rebuild only the
decoding table. -/
def set_include_prosigns (m : MorseCode) (v : PyVal) : MorseCode × Option Str :=
  match v with
  | .vbool b =>
    let m1 := { m with INCLUDE_PROSIGNS := b }
    let m2 := { m1 with decoding := _init_decoding m1.INCLUDE_PROSIGNS m1.dot m1.dash m1.encoding }
    (m2, none)
  | _ => (m, some (S ("Provided include_prosigns-parameter expected to be boolean")))

/-- `set(''.join(string.split())) == {a, b}` for distinct `a`, `b`. -/
def setEqPair (l : Str) (a b : Char) : Bool :=
  l.all (fun c => c == a || c == b) && l.any (fun c => c == a) && l.any (fun c => c == b)

/-- `MorseCode.identify_string_type`. -/
def identify_string_type (m : MorseCode) (s : Str) : STRING_TYPE :=
  let string_bits := (pySplitWS s).flatten
  if setEqPair string_bits m.dot m.dash then .MORSE_CODE
  else if setEqPair string_bits m.signal_on m.signal_off then .MORSE_SIGNAL
  else .TEXT

/-- The bit-loop body of `from_signal` Step 2: append the dot or dash
symbol (any non-dot bit counts as a dash), then the bit gap. -/
def fsBit (m : MorseCode) (line : List Str) (bit : Str) : List Str :=
  (line ++ [if bit = repChar m.signal_on m.dot_timing then [m.dot] else [m.dash]]) ++
    [m.bit_gap]

/-- The character-loop body of `from_signal` Step 2: run the bit loop,
pop the trailing bit gap, append the character gap. -/
def fsChar (m : MorseCode) (line : List Str) (character : Str) : List Str :=
  (popLast (((pySplitSep (repChar m.signal_off m.bit_timing) character).filter
      (fun b => !b.isEmpty)).foldl (fsBit m) line)) ++ [m.character_gap]

/-- The word-loop body of `from_signal` Step 2: run the character loop,
pop the trailing character gap, append the word gap. -/
def fsWord (m : MorseCode) (line : List Str) (word : Str) : List Str :=
  (popLast (((pySplitSep (repChar m.signal_off m.character_timing) word).filter
      (fun c => !c.isEmpty)).foldl (fsChar m) line)) ++ [m.word_gap]

/-- `MorseCode.from_signal`, Steps 2-3 (after the Step 1 assertion). -/
def from_signal_core (m : MorseCode) (s : Str) : Str :=
  (popLast (((pySplitSep (repChar m.signal_off m.word_timing) s).filter
      (fun w => !w.isEmpty)).foldl (fsWord m) [])).flatten

/-- `MorseCode.from_signal`: Step 1 asserts the input is of signal type,
raising `AssertionError` otherwise. -/
def from_signal (m : MorseCode) (s : Str) : Except Str Str :=
  if identify_string_type m s = .MORSE_SIGNAL then .ok (from_signal_core m s)
  else .error (S ("Provided morse_signal-parameter expected to be only a signal string-type"))

/-- The character-loop body of `encode` Step 2: characters missing from
the encoding table are skipped; with a non-empty bit gap the pattern is
emitted symbol by symbol with bit gaps, otherwise as one piece; then the
character gap is appended. -/
def encChar (m : MorseCode) (line : List Str) (character : Char) : List Str :=
  if dictHasKey m.encoding [character] then
    (if !m.bit_gap.isEmpty then
      popLast ((dictGet m.encoding [character] []).foldl
        (fun line ch => (line ++ [[ch]]) ++ [m.bit_gap]) line)
    else line ++ [dictGet m.encoding [character] []]) ++ [m.character_gap]
  else line

/-- The word-loop body of `encode` Step 2: run the character loop, pop the
trailing character gap, append the word gap. -/
def encWord (m : MorseCode) (line : List Str) (word : Str) : List Str :=
  (popLast (word.foldl (encChar m) line)) ++ [m.word_gap]

/-- The paragraph-loop body of `encode` Step 2: upper-case and split the
paragraph into words, run the word loop, pop the trailing word gap, then
append a line break (or a word gap when paragraphs are not preserved). -/
def encPara (m : MorseCode) (line : List Str) (paragraph : Str) : List Str :=
  (popLast ((pySplitWS (pyUpper paragraph)).foldl (encWord m) line)) ++
    [if m.PARAGRAPHS_IN_MORSE_CODE then ['\n'] else m.word_gap]

/-- `MorseCode.encode`, Steps 2-3: the Morse code of a TEXT-classified string. -/
def encodeText (m : MorseCode) (s : Str) : Str :=
  (popLast ((pySplitlines (pyStrip s)).foldl (encPara m) [])).flatten

/-- `MorseCode.encode`. -/
def encode (m : MorseCode) (s : Str) : Str :=
  match identify_string_type m s with
  | .MORSE_SIGNAL => from_signal_core m s
  | .MORSE_CODE => s
  | .TEXT => encodeText m s

/-- The symbol-loop body of `signal` Step 2: emit the on-run for a dot or
(anything else) a dash, then the bit-timing off-run. -/
def sigSym (m : MorseCode) (line : List Str) (ch : Char) : List Str :=
  (line ++ [if ch = m.dot then repChar m.signal_on m.dot_timing
            else repChar m.signal_on m.dash_timing]) ++
    [repChar m.signal_off m.bit_timing]

/-- The character-loop body of `signal` Step 2: strip bit gaps when
configured, run the symbol loop, pop the trailing bit-timing run, append
the character-timing off-run. -/
def sigChar (m : MorseCode) (line : List Str) (character : Str) : List Str :=
  (popLast ((if !m.bit_gap.isEmpty then pyReplace m.bit_gap [] character
             else character).foldl (sigSym m) line)) ++
    [repChar m.signal_off m.character_timing]

/-- The word-loop body of `signal` Step 2: run the character loop, pop the
trailing character-timing run, append the word-timing off-run. -/
def sigWord (m : MorseCode) (line : List Str) (word : Str) : List Str :=
  (popLast (((pySplitSep m.character_gap word).filter
      (fun c => !c.isEmpty)).foldl (sigChar m) line)) ++
    [repChar m.signal_off m.word_timing]

/-- `MorseCode.signal`, Steps 2-3 (with the paragraph elimination): the
signal string of a Morse-code string. -/
def signalFromCode (m : MorseCode) (s : Str) : Str :=
  (popLast (((pySplitSep m.word_gap (pyReplace ['\n'] m.word_gap s)).filter
      (fun w => !w.isEmpty)).foldl (sigWord m) [])).flatten

/-- `MorseCode.signal`. -/
def signal (m : MorseCode) (s : Str) : Str :=
  match identify_string_type m s with
  | .TEXT => signalFromCode m (encode m s)
  | .MORSE_SIGNAL => s
  | .MORSE_CODE => signalFromCode m s

/-- The character-loop body of `decode` Step 2: strip bit gaps when
configured and look the token up in the decoding table, with the unknown
glyph as fallback. -/
def decChar (m : MorseCode) (line : List Str) (character : Str) : List Str :=
  line ++ [dictGet m.decoding
    (if !m.bit_gap.isEmpty then pyReplace m.bit_gap [] character else character)
    m.UNKNOWN_CHARACTER]

/-- The word-loop body of `decode` Step 2: run the character loop (the
decoded characters of one word are appended with no separator), then
append one space. -/
def decWord (m : MorseCode) (line : List Str) (word : Str) : List Str :=
  (((pySplitSep m.character_gap word).filter
      (fun c => !c.isEmpty)).foldl (decChar m) line) ++ [[' ']]

/-- The paragraph-loop body of `decode` Step 2: run the word loop, pop the
trailing space, append a line break. -/
def decPara (m : MorseCode) (line : List Str) (paragraph : Str) : List Str :=
  (popLast (((pySplitSep m.word_gap paragraph).filter
      (fun w => !w.isEmpty)).foldl (decWord m) line)) ++ [['\n']]

/-- `MorseCode.decode`, Step 2 with the Step 3 join, before the final
`capitalize`. -/
def decodeRaw (m : MorseCode) (s : Str) : Str :=
  (popLast ((pySplitlines (pyStrip s)).foldl (decPara m) [])).flatten

/-- `MorseCode.decode` on a Morse-code string: the raw join, capitalized. -/
def decodeCode (m : MorseCode) (s : Str) : Str := pyCapitalize (decodeRaw m s)

/-- `MorseCode.decode`. -/
def decode (m : MorseCode) (s : Str) : Str :=
  match identify_string_type m s with
  | .MORSE_SIGNAL => decodeCode m (from_signal_core m s)
  | .TEXT => s
  | .MORSE_CODE => decodeCode m s



/-! ### Helper lemmas: the classifier -/

/-- The non-whitespace characters of a string, in order. -/
def nonWS (s : Str) : Str := s.filter (fun c => !isSpaceChar c)

theorem flatten_filter_nonempty (L : List Str) :
    (L.filter (fun w => !w.isEmpty)).flatten = L.flatten := by
  induction L with
  | nil => rfl
  | cons h t ih => cases h <;> simp_all [List.filter_cons]

theorem flatten_splitOnP (p : Char → Bool) (s : Str) :
    (List.splitOnP p s).flatten = s.filter (fun c => !p c) := by
  induction s with
  | nil => rfl
  | cons c t ih =>
    rw [List.splitOnP_cons]
    by_cases h : p c
    · simp [h, ih]
    · cases hsp : List.splitOnP p t with
      | nil => exact absurd hsp (List.splitOnP_ne_nil p t)
      | cons u us =>
        rw [hsp] at ih
        simp_all [List.filter_cons]

theorem flatten_pySplitWS (s : Str) : (pySplitWS s).flatten = nonWS s := by
  rw [pySplitWS, nonWS, flatten_filter_nonempty, flatten_splitOnP]

theorem setEqPair_iff (l : Str) (a b : Char) :
    setEqPair l a b = true ↔ (∀ c, c ∈ l ↔ (c = a ∨ c = b)) := by
  simp only [setEqPair, Bool.and_eq_true, List.all_eq_true, List.any_eq_true,
    Bool.or_eq_true, beq_iff_eq]
  constructor
  · rintro ⟨⟨hall, x, hx, hxa⟩, y, hy, hyb⟩ c
    exact ⟨fun hc => hall c hc, fun hc => hc.elim (fun e => e ▸ hxa ▸ hx) (fun e => e ▸ hyb ▸ hy)⟩
  · intro h
    exact ⟨⟨fun c hc => (h c).mp hc, a, (h a).mpr (Or.inl rfl), rfl⟩,
      b, (h b).mpr (Or.inr rfl), rfl⟩

theorem identify_eq (m : MorseCode) (s : Str) :
    identify_string_type m s =
      (if setEqPair (nonWS s) m.dot m.dash then .MORSE_CODE
       else if setEqPair (nonWS s) m.signal_on m.signal_off then .MORSE_SIGNAL
       else .TEXT) := by
  rw [identify_string_type, flatten_pySplitWS]

theorem identify_MC_eq (s : Str) :
    identify_string_type MC s =
      (if setEqPair (nonWS s) '.' '-' then .MORSE_CODE
       else if setEqPair (nonWS s) '█' '_' then .MORSE_SIGNAL
       else .TEXT) := identify_eq MC s

/-! ### C2 -/

/-- C2: the classifier is total with its result fully determined by the set
of distinct non-whitespace characters of the input: exactly `{dot, dash}`
gives `MORSE_CODE`, exactly `{signal_on, signal_off}` gives `MORSE_SIGNAL`,
and everything else (empty, all-whitespace, single-symbol inputs) gives
`TEXT` -- for the default-configured instance. -/
theorem C2_classifier : ∀ s : Str,
    (identify_string_type MC s = .MORSE_CODE ↔
      (∀ c, c ∈ nonWS s ↔ (c = '.' ∨ c = '-'))) ∧
    (identify_string_type MC s = .MORSE_SIGNAL ↔
      (∀ c, c ∈ nonWS s ↔ (c = '█' ∨ c = '_'))) ∧
    ((¬ (∀ c, c ∈ nonWS s ↔ (c = '.' ∨ c = '-'))) →
     (¬ (∀ c, c ∈ nonWS s ↔ (c = '█' ∨ c = '_'))) →
     identify_string_type MC s = .TEXT) ∧
    (∀ t : Str, (∀ c : Char, c ∈ nonWS s ↔ c ∈ nonWS t) →
      identify_string_type MC s = identify_string_type MC t) := by
  have hdisj : ∀ u : Str, setEqPair u '.' '-' = true → setEqPair u '█' '_' = true → False := by
    intro u h1 h2
    have hset1 := (setEqPair_iff u '.' '-').mp h1
    have hset2 := (setEqPair_iff u '█' '_').mp h2
    have hmem : ('.' : Char) ∈ u := (hset1 '.').mpr (Or.inl rfl)
    rcases (hset2 '.').mp hmem with h | h <;> exact absurd h (by decide)
  intro s
  refine ⟨?_, ?_, ?_, ?_⟩
  · rw [identify_MC_eq]
    constructor
    · intro h
      by_cases h1 : setEqPair (nonWS s) '.' '-' = true
      · exact (setEqPair_iff _ _ _).mp h1
      · rw [if_neg h1] at h
        split at h <;> simp_all
    · intro h
      rw [if_pos ((setEqPair_iff _ _ _).mpr h)]
  · rw [identify_MC_eq]
    constructor
    · intro h
      by_cases h1 : setEqPair (nonWS s) '.' '-' = true
      · rw [if_pos h1] at h
        simp_all
      · rw [if_neg h1] at h
        by_cases h2 : setEqPair (nonWS s) '█' '_' = true
        · exact (setEqPair_iff _ _ _).mp h2
        · rw [if_neg h2] at h
          simp_all
    · intro h
      have h2 : setEqPair (nonWS s) '█' '_' = true := (setEqPair_iff _ _ _).mpr h
      have h1 : ¬ setEqPair (nonWS s) '.' '-' = true := fun h1 => hdisj _ h1 h2
      rw [if_neg h1, if_pos h2]
  · intro h1 h2
    rw [identify_MC_eq]
    rw [if_neg (fun hh => h1 ((setEqPair_iff _ _ _).mp hh)),
        if_neg (fun hh => h2 ((setEqPair_iff _ _ _).mp hh))]
  · intro t hst
    have hpair : ∀ a b : Char, setEqPair (nonWS s) a b = setEqPair (nonWS t) a b := by
      intro a b
      by_cases h : setEqPair (nonWS s) a b = true
      · rw [h]
        exact ((setEqPair_iff _ _ _).mpr (fun c => (hst c).symm.trans
          ((setEqPair_iff _ _ _).mp h c))).symm
      · have h' : setEqPair (nonWS s) a b = false := by simpa using h
        rw [h']
        rcases hb : setEqPair (nonWS t) a b with _ | _
        · rfl
        · exact absurd ((setEqPair_iff _ _ _).mpr (fun c => (hst c).trans
            ((setEqPair_iff _ _ _).mp hb c))) h
    rw [identify_MC_eq, identify_MC_eq, hpair, hpair]

/-- Witness for C2 at concrete inputs. -/
theorem C2_classifier_witness :
    identify_string_type MC (S ("█__█")) = .MORSE_SIGNAL ∧
    (('█' : Char) ∈ nonWS (S ("█__█")) ↔ ('█' = '█' ∨ '█' = '_')) :=
  ⟨by decide, ((C2_classifier (S ("█__█"))).2.1.mp (by decide)) '█'⟩

/-! ### C3 -/

/-- C3 counterexample: `encode` is not idempotent on every input; the text
`"E"` encodes to `"."`, which is classified as TEXT again (a single dot is
not the two-element set `{dot, dash}`), so the second `encode` re-encodes
the dot as the punctuation pattern `".-.-.-"`. -/
theorem C3_counterexample :
    encode MC (S ("E")) = S (".") ∧
    encode MC (encode MC (S ("E"))) = S (".-.-.-") ∧
    S (".-.-.-") ≠ S (".") :=
  ⟨by decide, by decide, by decide⟩

/-- C3 (amended): `encode` returns MORSE_CODE-classified input unchanged,
hence `encode (encode x) = encode x` for every `x` whose encoding is
classified as MORSE_CODE (for instance any text whose code uses both a dot
and a dash). -/
theorem C3_amended : ∀ s : Str,
    (identify_string_type MC s = .MORSE_CODE → encode MC s = s) ∧
    (identify_string_type MC (encode MC s) = .MORSE_CODE →
      encode MC (encode MC s) = encode MC s) := by
  have hret : ∀ u : Str, identify_string_type MC u = .MORSE_CODE → encode MC u = u := by
    intro u hu
    rw [encode, hu]
  intro s
  exact ⟨hret s, hret (encode MC s)⟩

/-- Witness for C3 at concrete inputs. -/
theorem C3_amended_witness :
    encode MC (S (".- -")) = S (".- -") ∧
    encode MC (encode MC (S ("AB"))) = encode MC (S ("AB")) :=
  ⟨(C3_amended (S (".- -"))).1 (by decide),
   (C3_amended (S ("AB"))).2 (by decide)⟩


/-! ### C6 -/

/-- C6 counterexample: the decoding table does not give prosigns
precedence; `dict.update` re-assigns every inverted-encoding entry on top
of the inverted prosigns, so the shared pattern `"-.-"` decodes to the
letter `"K"`, not to the prosign name. -/
theorem C6_counterexample :
    dictGet MC.decoding (S ("-.-")) MC.UNKNOWN_CHARACTER = S ("K") ∧
    S ("K") ≠ S ("[General invitation to transmit]") :=
  ⟨by decide, by decide⟩

/-- C6 (amended): the inverse of the encoding table takes precedence over
the prosigns in the decoding table: every inverted-encoding entry survives
the layering, the patterns shared with prosigns (`"-.-"`, `".-.-."`,
`".-..."`, `"...-."`) decode to `"K"`, `"+"`, `"&"`, `"Ŝ"`, and only the
prosign patterns absent from the encoding table decode to prosign names. -/
theorem C6_amended :
    ((dictInvert MC.encoding).all
      (fun kv => dictGet MC.decoding kv.1 [] == kv.2) = true) ∧
    dictGet MC.decoding (S ("-.-")) MC.UNKNOWN_CHARACTER = S ("K") ∧
    dictGet MC.decoding (S (".-.-.")) MC.UNKNOWN_CHARACTER = S ("+") ∧
    dictGet MC.decoding (S (".-...")) MC.UNKNOWN_CHARACTER = S ("&") ∧
    dictGet MC.decoding (S ("...-.")) MC.UNKNOWN_CHARACTER = S ("Ŝ") ∧
    dictGet MC.decoding (S ("...-.-")) MC.UNKNOWN_CHARACTER = S ("[End of work]") ∧
    dictGet MC.decoding (S ("........")) MC.UNKNOWN_CHARACTER = S ("[Error]") ∧
    dictGet MC.decoding (S ("-.-.-")) MC.UNKNOWN_CHARACTER = S ("[Starting signal]") :=
  ⟨by decide, by decide, by decide, by decide, by decide, by decide, by decide, by decide⟩

/-! ### C9 -/

/-- C9 counterexample: the table lookups for `"..."` and `"---"` produce
`"S"` and `"O"`, but `decode "... ---"` is `"So"`, not `"SO"`: Python's
`capitalize` lower-cases everything after the first character. -/
theorem C9_counterexample :
    decode MC (S ("... ---")) = S ("So") ∧
    dictGet MC.decoding (S ("...")) MC.UNKNOWN_CHARACTER = S ("S") ∧
    dictGet MC.decoding (S ("---")) MC.UNKNOWN_CHARACTER = S ("O") ∧
    S ("So") ≠ S ("SO") :=
  ⟨by decide, by decide, by decide, by decide⟩

/-- C9 (amended): on MORSE_CODE-classified input, `decode` returns the
Python-capitalized raw join of the decoding-table lookups: its first
character is the upper-cased first raw character, and every later
character is the lower-cased raw character, not the raw character itself. -/
theorem C9_amended : ∀ s : Str, identify_string_type MC s = .MORSE_CODE →
    decode MC s = pyCapitalize (decodeRaw MC s) ∧
    (decode MC s)[0]? = ((decodeRaw MC s)[0]?).map Char.toUpper ∧
    ∀ i : Nat, (decode MC s)[i + 1]? = ((decodeRaw MC s)[i + 1]?).map Char.toLower := by
  intro s h
  have hdec : decode MC s = pyCapitalize (decodeRaw MC s) := by
    rw [decode, h]
    rfl
  refine ⟨hdec, ?_, ?_⟩
  · rw [hdec]
    cases decodeRaw MC s with
    | nil => rfl
    | cons c rest => simp [pyCapitalize]
  · intro i
    rw [hdec]
    cases decodeRaw MC s with
    | nil => rfl
    | cons c rest => simp [pyCapitalize]

/-- Witness for C9 at a concrete input. -/
theorem C9_amended_witness :
    decode MC (S ("... ---")) = pyCapitalize (decodeRaw MC (S ("... ---"))) ∧
    (decode MC (S ("... ---")))[1]? = ((decodeRaw MC (S ("... ---")))[1]?).map Char.toLower :=
  ⟨(C9_amended (S ("... ---")) (by decide)).1,
   (C9_amended (S ("... ---")) (by decide)).2.2 0⟩

/-! ### C10 -/

/-- C10: a successful `set_include_prosigns` call reports no error, sets
the flag, rebuilds only the decoding table from the unchanged encoding
table, and leaves every other field of the instance exactly as before. -/
theorem C10_prosigns_frame : ∀ (m : MorseCode) (b : Bool),
    (set_include_prosigns m (.vbool b)).2 = none ∧
    (set_include_prosigns m (.vbool b)).1.INCLUDE_PROSIGNS = b ∧
    (set_include_prosigns m (.vbool b)).1.decoding =
      _init_decoding b m.dot m.dash m.encoding ∧
    (set_include_prosigns m (.vbool b)).1.encoding = m.encoding ∧
    (set_include_prosigns m (.vbool b)).1.dot = m.dot ∧
    (set_include_prosigns m (.vbool b)).1.dash = m.dash ∧
    (set_include_prosigns m (.vbool b)).1.bit_gap = m.bit_gap ∧
    (set_include_prosigns m (.vbool b)).1.character_gap = m.character_gap ∧
    (set_include_prosigns m (.vbool b)).1.word_gap = m.word_gap ∧
    (set_include_prosigns m (.vbool b)).1.signal_on = m.signal_on ∧
    (set_include_prosigns m (.vbool b)).1.signal_off = m.signal_off ∧
    (set_include_prosigns m (.vbool b)).1.dot_timing = m.dot_timing ∧
    (set_include_prosigns m (.vbool b)).1.dash_timing = m.dash_timing ∧
    (set_include_prosigns m (.vbool b)).1.bit_timing = m.bit_timing ∧
    (set_include_prosigns m (.vbool b)).1.character_timing = m.character_timing ∧
    (set_include_prosigns m (.vbool b)).1.word_timing = m.word_timing ∧
    (set_include_prosigns m (.vbool b)).1.UNKNOWN_CHARACTER = m.UNKNOWN_CHARACTER ∧
    (set_include_prosigns m (.vbool b)).1.PARAGRAPHS_IN_MORSE_CODE = m.PARAGRAPHS_IN_MORSE_CODE ∧
    (set_include_prosigns m (.vbool b)).1.INCLUDE_PUNCTUATION = m.INCLUDE_PUNCTUATION ∧
    (set_include_prosigns m (.vbool b)).1.INCLUDE_NON_LATIN = m.INCLUDE_NON_LATIN := by
  intro m b
  refine ⟨rfl, rfl, rfl, rfl, rfl, rfl, rfl, rfl, rfl, rfl,
    rfl, rfl, rfl, rfl, rfl, rfl, rfl, rfl, rfl, rfl⟩

/-! ### C7 -/

/-- The intended rendering of a default pattern: each default dot becomes
the configured dot, each default dash the configured dash. -/
def dotDashSubst (dot dash : Char) (v : Str) : Str :=
  v.map (fun c => if c = '.' then dot else dash)

theorem replace_dots_dashes_eq (dot dash : Char) (T : Dict)
    (h : ∀ kv ∈ T, ∀ c ∈ kv.2, c = '.' ∨ c = '-') :
    _replace_dots_and_dashes dot dash T =
      T.map (fun kv => (kv.1, dotDashSubst dot dash kv.2)) := by
  unfold _replace_dots_and_dashes
  split_ifs with h1 h2
  · simp only [List.map_map]
    apply List.map_congr_left
    intro kv hkv
    simp only [Function.comp_def]
    congr 1
    simp only [List.map_map, dotDashSubst]
    apply List.map_congr_left
    intro c hc
    rcases h kv hkv c hc with rfl | rfl
    · simp [Function.comp_def, h1]
    · simp [Function.comp_def]
  · simp only [List.map_map]
    apply List.map_congr_left
    intro kv hkv
    simp only [Function.comp_def]
    congr 1
    simp only [List.map_map, dotDashSubst]
    apply List.map_congr_left
    intro c hc
    rcases h kv hkv c hc with rfl | rfl
    · simp [Function.comp_def]
    · simp [Function.comp_def, h2]
  · push_neg at h1 h2
    subst h1
    subst h2
    simp only [List.map_map]
    apply List.map_congr_left
    intro kv hkv
    simp only [Function.comp_def]
    congr 1
    simp only [List.map_map, dotDashSubst]
    apply List.map_congr_left
    intro c hc
    rcases h kv hkv c hc with rfl | rfl
    · simp [Function.comp_def]
    · simp [Function.comp_def]

/-- C7: for any valid dot/dash pair (including the swapped pair), every
entry of the derived encoding table is the default-table pattern with each
default `'.'` sent to the configured dot and each default `'-'` sent to
the configured dash, with no aliasing between the two substitutions, for
every flag combination. -/
theorem C7_substitution : ∀ dot dash : Char, dot ≠ dash → ∀ nl pu : Bool,
    _init_encoding nl pu dot dash =
      (baseCodes nl pu).map (fun kv => (kv.1, dotDashSubst dot dash kv.2)) := by
  intro dot dash _hd nl pu
  have halpha : ∀ kv ∈ baseCodes nl pu, ∀ c ∈ kv.2, c = '.' ∨ c = '-' := by
    cases nl <;> cases pu <;> decide
  exact replace_dots_dashes_eq dot dash _ halpha

/-- Witness for C7 at the swapped dot/dash profile. -/
theorem C7_substitution_witness :
    _init_encoding true true '-' '.' =
      (baseCodes true true).map (fun kv => (kv.1, dotDashSubst '-' '.' kv.2)) :=
  C7_substitution '-' '.' (by decide) true true

/-! ### C8 -/

set_option maxHeartbeats 1600000 in
/-- C8: constructing with `dot_timing = dash_timing` never yields an
instance (the dash-timing assertion fails), and a wrongly-typed argument
to any configuration setter is returned as feedback with the instance --
every field and both tables -- exactly as before. -/
theorem C8_config_rejection :
    (∀ (dot dash bg cg wg son soff : Str) (dt bt ct wt : Int) (m : MorseCode),
       mkMorseCode dot dash bg cg wg son soff dt dt bt ct wt ≠ .ok m) ∧
    (∀ (m : MorseCode) (v : PyVal), v.isBoolVal = false →
       set_include_punctuation m v =
         (m, some (S ("Provided include_punctuation-parameter expected to be boolean"))) ∧
       set_include_non_latin m v =
         (m, some (S ("Provided include_non_latin-parameter expected to be boolean"))) ∧
       set_include_prosigns m v =
         (m, some (S ("Provided include_prosigns-parameter expected to be boolean"))) ∧
       set_paragraphs_in_morse_code m v =
         (m, some (S ("Provided paragraphs_in_morse_code-parameter expected to be boolean")))) ∧
    (∀ (m : MorseCode) (v : PyVal), v.isStrVal = false →
       set_unknown_character m v =
         (m, some (S ("Provided unknown_character-parameter expected to be a string")))) := by
  refine ⟨?_, ?_, ?_⟩
  · intro dot dash bg cg wg son soff dt bt ct wt m h
    rw [mkMorseCode] at h
    by_cases c1 : dot.length ≠ 1
    · rw [if_pos c1] at h
      exact Except.noConfusion h
    rw [if_neg c1] at h
    by_cases c2 : dash.length ≠ 1
    · rw [if_pos c2] at h
      exact Except.noConfusion h
    rw [if_neg c2] at h
    by_cases c3 : dot = dash
    · rw [if_pos c3] at h
      exact Except.noConfusion h
    rw [if_neg c3] at h
    by_cases c4 : isSubstrOf cg bg = true
    · rw [if_pos c4] at h
      exact Except.noConfusion h
    rw [if_neg c4] at h
    by_cases c5 : isSubstrOf wg bg = true
    · rw [if_pos c5] at h
      exact Except.noConfusion h
    rw [if_neg c5] at h
    by_cases c6 : isSubstrOf wg cg = true
    · rw [if_pos c6] at h
      exact Except.noConfusion h
    rw [if_neg c6] at h
    by_cases c7 : son.length ≠ 1
    · rw [if_pos c7] at h
      exact Except.noConfusion h
    rw [if_neg c7] at h
    by_cases c8 : soff.length ≠ 1
    · rw [if_pos c8] at h
      exact Except.noConfusion h
    rw [if_neg c8] at h
    by_cases c9 : son = soff
    · rw [if_pos c9] at h
      exact Except.noConfusion h
    rw [if_neg c9] at h
    by_cases c10 : dt ≤ 0
    · rw [if_pos c10] at h
      exact Except.noConfusion h
    rw [if_neg c10, if_pos (le_refl dt)] at h
    exact Except.noConfusion h
  · intro m v hv
    cases v with
    | vbool b => exact Bool.noConfusion hv
    | vstr u => exact ⟨rfl, rfl, rfl, rfl⟩
    | vint n => exact ⟨rfl, rfl, rfl, rfl⟩
    | vnone => exact ⟨rfl, rfl, rfl, rfl⟩
  · intro m v hv
    cases v with
    | vstr u => exact Bool.noConfusion hv
    | vbool b => rfl
    | vint n => rfl
    | vnone => rfl

/-- Witness for C8 at concrete inputs. -/
theorem C8_config_rejection_witness :
    mkMorseCode (S (".")) (S ("-")) [] (S (" ")) (S ("   ")) (S ("█")) (S ("_"))
        3 3 1 3 7 ≠ .ok MC ∧
    set_include_prosigns MC .vnone =
      (MC, some (S ("Provided include_prosigns-parameter expected to be boolean"))) := by
  constructor
  · exact C8_config_rejection.1 (S (".")) (S ("-")) [] (S (" ")) (S ("   "))
      (S ("█")) (S ("_")) 3 1 3 7 MC
  · exact (C8_config_rejection.2.1 MC .vnone (by decide)).2.2.1


/-! ### C5 -/

theorem foldl_preserve {α β : Type} (P : β → Prop) (f : β → α → β) (xs : List α)
    (init : β) (h0 : P init) (hstep : ∀ b a, P b → P (f b a)) :
    P (xs.foldl f init) := by
  induction xs generalizing init with
  | nil => exact h0
  | cons x xs ih => exact ih _ (hstep _ _ h0)

theorem lineOK_append {P0 : Char → Prop} {l l' : List Str}
    (h : ∀ u ∈ l, ∀ c ∈ u, P0 c) (h' : ∀ u ∈ l', ∀ c ∈ u, P0 c) :
    ∀ u ∈ l ++ l', ∀ c ∈ u, P0 c := by
  intro u hu
  rcases List.mem_append.mp hu with hu | hu
  · exact h u hu
  · exact h' u hu

theorem lineOK_popLast {P0 : Char → Prop} {l : List Str}
    (h : ∀ u ∈ l, ∀ c ∈ u, P0 c) : ∀ u ∈ popLast l, ∀ c ∈ u, P0 c := by
  intro u hu
  rw [popLast] at hu
  split at hu
  · exact h u hu
  · exact h u (List.dropLast_subset l hu)

/-- Every character of `from_signal_core`'s output is drawn from the
dot/dash literals and the three gap strings of the instance. -/
theorem from_signal_core_alphabet (m : MorseCode) (s : Str) (P0 : Char → Prop)
    (hbit : ∀ ch ∈ m.bit_gap, P0 ch) (hchar : ∀ ch ∈ m.character_gap, P0 ch)
    (hword : ∀ ch ∈ m.word_gap, P0 ch) (hdot : P0 m.dot) (hdash : P0 m.dash) :
    ∀ ch ∈ from_signal_core m s, P0 ch := by
  intro ch hch
  unfold from_signal_core at hch
  rw [List.mem_flatten] at hch
  obtain ⟨u, hu, hcu⟩ := hch
  refine lineOK_popLast ?_ u hu ch hcu
  apply foldl_preserve (fun l => ∀ u ∈ l, ∀ c ∈ u, P0 c)
  · exact fun u hu => absurd hu (List.not_mem_nil u)
  · intro line word hline
    unfold fsWord
    apply lineOK_append
    · apply lineOK_popLast
      apply foldl_preserve (fun l => ∀ u ∈ l, ∀ c ∈ u, P0 c) _ _ _ hline
      intro l2 character h2
      unfold fsChar
      apply lineOK_append
      · apply lineOK_popLast
        apply foldl_preserve (fun l => ∀ u ∈ l, ∀ c ∈ u, P0 c) _ _ _ h2
        intro l3 bit h3
        unfold fsBit
        apply lineOK_append
        · apply lineOK_append h3
          intro u hu c hc
          rw [List.mem_singleton.mp hu] at hc
          split at hc
          · rw [List.mem_singleton.mp hc]
            exact hdot
          · rw [List.mem_singleton.mp hc]
            exact hdash
        · intro u hu
          rw [List.mem_singleton.mp hu]
          exact hbit
      · intro u hu
        rw [List.mem_singleton.mp hu]
        exact hchar
    · intro u hu
      rw [List.mem_singleton.mp hu]
      exact hword

/-- C5: `from_signal` fails with the assertion message exactly when the
input is not classified as a signal, producing no output in that case;
on signal-classified input it succeeds, returning the Step-2 Morse-code
string, whose characters all lie in the code alphabet (dot, dash, space). -/
theorem C5_from_signal_contract : ∀ s : Str,
    ((∃ c, from_signal MC s = .ok c) ↔
      identify_string_type MC s = .MORSE_SIGNAL) ∧
    (identify_string_type MC s ≠ .MORSE_SIGNAL →
      from_signal MC s =
        .error (S ("Provided morse_signal-parameter expected to be only a signal string-type"))) ∧
    (∀ c, from_signal MC s = .ok c →
      c = from_signal_core MC s ∧ ∀ ch ∈ c, ch = '.' ∨ ch = '-' ∨ ch = ' ') := by
  intro s
  by_cases h : identify_string_type MC s = .MORSE_SIGNAL
  · refine ⟨⟨fun _ => h, fun _ => ⟨from_signal_core MC s, by rw [from_signal, if_pos h]⟩⟩,
      fun hn => absurd h hn, ?_⟩
    intro c hc
    rw [from_signal, if_pos h] at hc
    have hcc : from_signal_core MC s = c := Except.ok.inj hc
    refine ⟨hcc.symm, ?_⟩
    rw [← hcc]
    exact from_signal_core_alphabet MC s _ (by decide) (by decide) (by decide)
      (by decide) (by decide)
  · have herr : from_signal MC s =
        .error (S ("Provided morse_signal-parameter expected to be only a signal string-type")) := by
      rw [from_signal, if_neg h]
    refine ⟨⟨fun ⟨c, hc⟩ => ?_, fun hs => absurd hs h⟩, fun _ => herr, fun c hc => ?_⟩
    · rw [herr] at hc
      exact Except.noConfusion hc
    · rw [herr] at hc
      exact Except.noConfusion hc

/-- Witness for C5 at concrete inputs. -/
theorem C5_from_signal_contract_witness :
    from_signal MC (S ("ABC")) =
      .error (S ("Provided morse_signal-parameter expected to be only a signal string-type")) ∧
    from_signal MC (S ("█_███")) = .ok (S (".-")) := by
  constructor
  · exact (C5_from_signal_contract (S ("ABC"))).2.1 (by decide)
  · obtain ⟨c, hc⟩ := (C5_from_signal_contract (S ("█_███"))).1.mpr (by decide)
    have h2 := ((C5_from_signal_contract (S ("█_███"))).2.2 c hc).1
    rw [hc, h2]
    have hcore : from_signal_core MC (S ("█_███")) = S (".-") := by decide
    rw [hcore]


/-! ### Helper lemmas: `splitSepCore` -/

theorem splitSepCore_skip (sep : Str) :
    ∀ (n : Nat) (s acc : Str),
      splitSepCore sep s acc n = splitSepCore sep (s.drop n) acc 0 := by
  intro n
  induction n with
  | zero => intro s acc; rw [List.drop_zero]
  | succ n ih =>
    intro s acc
    cases s with
    | nil => rfl
    | cons c rest =>
      show splitSepCore sep rest acc n = _
      rw [List.drop_succ_cons]
      exact ih rest acc

theorem splitSepCore_ne_nil (sep : Str) :
    ∀ (s acc : Str) (k : Nat), splitSepCore sep s acc k ≠ [] := by
  intro s
  induction s with
  | nil => intro acc k; exact List.cons_ne_nil _ _
  | cons c rest ih =>
    intro acc k
    cases k with
    | succ n => exact ih acc n
    | zero =>
      show (if sep.isPrefixOf (c :: rest) then _ else _) ≠ []
      split
      · exact List.cons_ne_nil _ _
      · exact ih (c :: acc) 0

theorem splitSepCore_cons_pos (sep : Str) {c : Char} {rest : Str} (acc : Str)
    (h : sep <+: (c :: rest)) :
    splitSepCore sep (c :: rest) acc 0 =
      acc.reverse :: splitSepCore sep (rest.drop (sep.length - 1)) [] 0 := by
  show (if sep.isPrefixOf (c :: rest) then
      acc.reverse :: splitSepCore sep rest [] (sep.length - 1)
    else splitSepCore sep rest (c :: acc) 0) = _
  rw [if_pos (List.isPrefixOf_iff_prefix.mpr h), splitSepCore_skip]

theorem splitSepCore_cons_neg (sep : Str) {c : Char} {rest : Str} (acc : Str)
    (h : ¬ (sep <+: (c :: rest))) :
    splitSepCore sep (c :: rest) acc 0 = splitSepCore sep rest (c :: acc) 0 := by
  show (if sep.isPrefixOf (c :: rest) then
      acc.reverse :: splitSepCore sep rest [] (sep.length - 1)
    else splitSepCore sep rest (c :: acc) 0) = _
  rw [if_neg (fun hh => h (List.isPrefixOf_iff_prefix.mp hh))]

theorem splitSepCore_walk (sep : Str) :
    ∀ (p t acc : Str), (∀ i, i < p.length → ¬ (sep <+: (p.drop i ++ t))) →
      splitSepCore sep (p ++ t) acc 0 = splitSepCore sep t (p.reverse ++ acc) 0 := by
  intro p
  induction p with
  | nil => intro t acc _; rw [List.nil_append, List.reverse_nil, List.nil_append]
  | cons c p' ih =>
    intro t acc h
    have h0 : ¬ (sep <+: (c :: (p' ++ t))) := by
      have h0' := h 0 (by simp)
      simpa using h0'
    rw [List.cons_append, splitSepCore_cons_neg sep acc h0]
    have hcond : ∀ i, i < p'.length → ¬ (sep <+: (p'.drop i ++ t)) := by
      intro i hi
      have hs := h (i + 1) (by simp only [List.length_cons]; omega)
      simpa using hs
    rw [ih t (c :: acc) hcond, List.reverse_cons, List.append_assoc, List.singleton_append]

theorem splitSepCore_consume (sep : Str) (hsep : sep ≠ []) (t acc : Str) :
    splitSepCore sep (sep ++ t) acc 0 = acc.reverse :: splitSepCore sep t [] 0 := by
  obtain ⟨d, sep', rfl⟩ : ∃ d sep', sep = d :: sep' := by
    cases sep with
    | nil => exact absurd rfl hsep
    | cons d sep' => exact ⟨d, sep', rfl⟩
  rw [List.cons_append,
    splitSepCore_cons_pos (d :: sep') acc (by rw [← List.cons_append]; exact List.prefix_append _ t)]
  have hlen : (d :: sep').length - 1 = sep'.length := by simp
  rw [hlen, List.drop_left]

theorem splitSepCore_single (sep : Str) {s : Str} (h : ¬ (sep <:+: s)) (acc : Str) :
    splitSepCore sep s acc 0 = [acc.reverse ++ s] := by
  have hcond : ∀ i, i < s.length → ¬ (sep <+: (s.drop i ++ ([] : Str))) := by
    intro i hi hpre
    rw [List.append_nil] at hpre
    exact h (hpre.isInfix.trans (List.drop_suffix i s).isInfix)
  have hw := splitSepCore_walk sep s [] acc hcond
  rw [List.append_nil] at hw
  rw [hw]
  show [(s.reverse ++ acc).reverse] = _
  rw [List.reverse_append, List.reverse_reverse]

theorem leftmost_decomp (sep : Str) (hsep : sep ≠ []) :
    ∀ s : Str, sep <:+: s → ∃ p s', s = p ++ sep ++ s' ∧
      (∀ i, i < p.length → ¬ (sep <+: (p.drop i ++ sep ++ s'))) := by
  intro s
  induction s with
  | nil =>
    intro h
    exact absurd (List.eq_nil_of_infix_nil h) hsep
  | cons c rest ih =>
    intro h
    by_cases hp : sep <+: (c :: rest)
    · obtain ⟨s', hs'⟩ := hp
      exact ⟨[], s', by rw [List.nil_append, hs'], fun i hi => by simp at hi⟩
    · have hrest : sep <:+: rest := (List.infix_cons_iff.mp h).resolve_left hp
      obtain ⟨p, s', heq, hmin⟩ := ih hrest
      refine ⟨c :: p, s', by rw [heq, List.cons_append, List.cons_append], ?_⟩
      intro i hi
      cases i with
      | zero =>
        intro hpre
        apply hp
        rw [List.drop_zero, List.cons_append, List.cons_append, ← heq] at hpre
        exact hpre
      | succ i =>
        intro hpre
        rw [List.drop_succ_cons] at hpre
        exact hmin i (by simp only [List.length_cons] at hi; omega) hpre

theorem splitSepCore_decomp (sep : Str) (hsep : sep ≠ []) {s p s' : Str}
    (heq : s = p ++ sep ++ s')
    (hmin : ∀ i, i < p.length → ¬ (sep <+: (p.drop i ++ sep ++ s'))) :
    splitSepCore sep s [] 0 = p :: splitSepCore sep s' [] 0 := by
  subst heq
  have hmin' : ∀ i, i < p.length → ¬ (sep <+: (p.drop i ++ (sep ++ s'))) := by
    intro i hi
    rw [← List.append_assoc]
    exact hmin i hi
  rw [List.append_assoc, splitSepCore_walk sep p (sep ++ s') [] hmin', List.append_nil,
    splitSepCore_consume sep hsep s' p.reverse, List.reverse_reverse]

theorem intercalate_single (sep p : Str) : List.intercalate sep [p] = p := by
  simp [List.intercalate]

theorem intercalate_cons₂ (sep p : Str) (L : List Str) (h : L ≠ []) :
    List.intercalate sep (p :: L) = p ++ sep ++ List.intercalate sep L := by
  cases L with
  | nil => exact absurd rfl h
  | cons q L' =>
    rw [List.intercalate, List.intercalate, List.intersperse_cons_cons,
      List.flatten_cons, List.flatten_cons, List.append_assoc]

theorem intercalate_splitSepCore (sep : Str) (hsep : sep ≠ []) :
    ∀ (N : Nat) (s : Str), s.length ≤ N →
      List.intercalate sep (splitSepCore sep s [] 0) = s := by
  intro N
  induction N with
  | zero =>
    intro s hs
    have hnil : s = [] := List.eq_nil_of_length_eq_zero (Nat.le_zero.mp hs)
    subst hnil
    rfl
  | succ n ih =>
    intro s hs
    by_cases hocc : sep <:+: s
    · obtain ⟨p, s', heq, hmin⟩ := leftmost_decomp sep hsep s hocc
      rw [splitSepCore_decomp sep hsep heq hmin,
        intercalate_cons₂ sep p _ (splitSepCore_ne_nil sep s' [] 0)]
      have hlen : s'.length ≤ n := by
        have hslen : s.length = p.length + sep.length + s'.length := by
          rw [heq, List.length_append, List.length_append]
        have hpos : 0 < sep.length := List.length_pos.mpr hsep
        omega
      rw [ih s' hlen, heq]
    · rw [splitSepCore_single sep hocc, intercalate_single, List.reverse_nil, List.nil_append]

theorem splitSepCore_dropLast (sep : Str) (hsep : sep ≠ []) :
    ∀ (N : Nat) (s : Str), s.length ≤ N →
      ∀ p ∈ (splitSepCore sep s [] 0).dropLast, p ≠ [] → ¬ (sep <+: (p ++ sep)) := by
  intro N
  induction N with
  | zero =>
    intro s hs p hp
    have hnil : s = [] := List.eq_nil_of_length_eq_zero (Nat.le_zero.mp hs)
    subst hnil
    simp [splitSepCore] at hp
  | succ n ih =>
    intro s hs p hp hpne
    by_cases hocc : sep <:+: s
    · obtain ⟨p0, s', heq, hmin⟩ := leftmost_decomp sep hsep s hocc
      rw [splitSepCore_decomp sep hsep heq hmin] at hp
      have hL := splitSepCore_ne_nil sep s' [] 0
      cases hLs : splitSepCore sep s' [] 0 with
      | nil => exact absurd hLs hL
      | cons q L' =>
        rw [hLs, List.dropLast_cons₂, List.mem_cons] at hp
        rcases hp with rfl | hp
        · intro hpre
          have h0 := hmin 0 (List.length_pos.mpr hpne)
          rw [List.drop_zero] at h0
          exact h0 (hpre.trans (List.prefix_append _ s'))
        · have hlen : s'.length ≤ n := by
            have hslen : s.length = p0.length + sep.length + s'.length := by
              rw [heq, List.length_append, List.length_append]
            have hpos : 0 < sep.length := List.length_pos.mpr hsep
            omega
          have hih := ih s' hlen p
          rw [hLs] at hih
          exact hih hp hpne
    · rw [splitSepCore_single sep hocc] at hp
      simp at hp


/-! ### Helper lemmas: runs of a repeated character -/

theorem replicate_pos_ne_nil {c : Char} {j : Nat} (hj : 0 < j) :
    List.replicate j c ≠ [] := by
  intro h
  have hlen := List.length_replicate j c
  rw [h] at hlen
  simp at hlen
  omega

theorem replicate_prefix_replicate {c : Char} {k k' : Nat} (h : k ≤ k') :
    List.replicate k c <+: List.replicate k' c := by
  rw [List.prefix_iff_eq_take, List.length_replicate, List.take_replicate]
  congr 1
  omega

theorem not_run_mono {c : Char} {k k' : Nat} (hkk : k ≤ k') {p : Str}
    (h : ¬ (List.replicate k c <:+: p)) : ¬ (List.replicate k' c <:+: p) :=
  fun habs => h ((replicate_prefix_replicate hkk).isInfix.trans habs)

theorem replicate_prefix_split {c : Char} :
    ∀ (A : Str) (k : Nat) (B : Str), (List.replicate k c <+: A ++ B) →
      (List.replicate k c <+: A) ∨
      (A = List.replicate A.length c ∧ (List.replicate (k - A.length) c <+: B)) := by
  intro A
  induction A with
  | nil =>
    intro k B h
    exact Or.inr ⟨rfl, by simpa using h⟩
  | cons a A' ih =>
    intro k B h
    cases k with
    | zero => exact Or.inl List.nil_prefix
    | succ k' =>
      rw [List.replicate_succ, List.cons_append] at h
      obtain ⟨hac, h'⟩ := List.cons_prefix_cons.mp h
      subst hac
      rcases ih k' B h' with h1 | ⟨hA, h2⟩
      · refine Or.inl ?_
        rw [List.replicate_succ]
        exact List.cons_prefix_cons.mpr ⟨rfl, h1⟩
      · refine Or.inr ⟨?_, ?_⟩
        · rw [List.length_cons, List.replicate_succ, ← hA]
        · rw [List.length_cons]
          have hs : k' + 1 - (A'.length + 1) = k' - A'.length := by omega
          rw [hs]
          exact h2

theorem replicate_infix_split {c : Char} :
    ∀ (A : Str) (k : Nat) (B : Str), (List.replicate k c <:+: (A ++ B)) →
      (List.replicate k c <:+: A) ∨ (List.replicate k c <:+: B) ∨
      (∃ i j, i + j = k ∧ 0 < i ∧ 0 < j ∧
        (List.replicate i c <:+ A) ∧ (List.replicate j c <+: B)) := by
  intro A
  induction A with
  | nil =>
    intro k B h
    exact Or.inr (Or.inl (by simpa using h))
  | cons a A' ih =>
    intro k B h
    cases k with
    | zero => exact Or.inl List.nil_infix
    | succ k' =>
      rw [List.cons_append] at h
      rcases List.infix_cons_iff.mp h with hp | hinf
      · rw [List.replicate_succ] at hp
        obtain ⟨hac, h'⟩ := List.cons_prefix_cons.mp hp
        subst hac
        rcases replicate_prefix_split A' k' B h' with h1 | ⟨hA, h2⟩
        · refine Or.inl ?_
          have hpre : List.replicate (k' + 1) c <+: c :: A' := by
            rw [List.replicate_succ]
            exact List.cons_prefix_cons.mpr ⟨rfl, h1⟩
          exact hpre.isInfix
        · by_cases hj : k' - A'.length = 0
          · have hk : k' ≤ A'.length := by omega
            refine Or.inl ?_
            have hpre : List.replicate (k' + 1) c <+: c :: A' := by
              rw [List.replicate_succ]
              refine List.cons_prefix_cons.mpr ⟨rfl, ?_⟩
              rw [hA]
              exact replicate_prefix_replicate hk
            exact hpre.isInfix
          · refine Or.inr (Or.inr
              ⟨A'.length + 1, k' - A'.length, by omega, by omega, by omega, ?_, h2⟩)
            have hrepl : List.replicate (A'.length + 1) c = c :: A' := by
              rw [List.replicate_succ, ← hA]
            rw [hrepl]
      · rcases ih (k' + 1) B hinf with h1 | h1 | ⟨i, j, hij, hi, hj, hsuf, hpre⟩
        · exact Or.inl (List.infix_cons h1)
        · exact Or.inr (Or.inl h1)
        · exact Or.inr (Or.inr
            ⟨i, j, hij, hi, hj, hsuf.trans (List.suffix_cons a A'), hpre⟩)

theorem head?_eq_of_run (c : Char) {j : Nat} (hj : 0 < j) {p : Str}
    (h : List.replicate j c <+: p) : p.head? = some c := by
  obtain ⟨w, hw⟩ := h
  rw [← hw, List.head?_append_of_ne_nil _ (replicate_pos_ne_nil hj),
    List.head?_replicate, if_neg (by omega)]

theorem getLast?_eq_of_run (c : Char) {j : Nat} (hj : 0 < j) {p : Str}
    (h : List.replicate j c <:+ p) : p.getLast? = some c := by
  obtain ⟨w, hw⟩ := h
  rw [← hw, List.getLast?_append_of_ne_nil _ (replicate_pos_ne_nil hj),
    List.getLast?_replicate, if_neg (by omega)]

/-- A piece usable between runs of the character `c`: non-empty, not
starting or ending with `c`, with no run of `k` consecutive `c`s. -/
def RunFree (c : Char) (k : Nat) (p : Str) : Prop :=
  p ≠ [] ∧ p.head? ≠ some c ∧ p.getLast? ≠ some c ∧ ¬ (List.replicate k c <:+: p)

theorem runFree_of_not_mem {c : Char} {k : Nat} (hk : 0 < k) {p : Str}
    (hne : p ≠ []) (hmem : c ∉ p) : RunFree c k p := by
  refine ⟨hne, ?_, ?_, ?_⟩
  · intro hh
    exact hmem (List.mem_of_mem_head? (Option.mem_def.mpr hh))
  · intro hh
    exact hmem (List.mem_of_mem_getLast? (Option.mem_def.mpr hh))
  · intro habs
    exact hmem (habs.subset (List.mem_replicate.mpr ⟨by omega, rfl⟩))

theorem runFree_intercalate {c : Char} {k m : Nat} (hmk : m < k) :
    ∀ (ps : List Str), (∀ p ∈ ps, RunFree c k p) → ps ≠ [] →
      RunFree c k (List.intercalate (List.replicate m c) ps) := by
  intro ps
  induction ps with
  | nil => intro _ h; exact absurd rfl h
  | cons p ps' ih =>
    intro hall _
    cases ps' with
    | nil =>
      rw [intercalate_single]
      exact hall p (List.mem_cons_self p _)
    | cons q ps'' =>
      have hI := ih (fun r hr => hall r (List.mem_cons_of_mem p hr)) (List.cons_ne_nil q ps'')
      obtain ⟨hpne, hphead, hplast, hprun⟩ := hall p (List.mem_cons_self p _)
      obtain ⟨hIne, hIhead, hIlast, hIrun⟩ := hI
      rw [intercalate_cons₂ _ _ _ (List.cons_ne_nil q ps'')]
      refine ⟨?_, ?_, ?_, ?_⟩
      · intro hnil
        rw [List.append_assoc] at hnil
        exact hpne (List.append_eq_nil.mp hnil).1
      · rw [List.append_assoc, List.head?_append_of_ne_nil _ hpne]
        exact hphead
      · rw [List.getLast?_append_of_ne_nil _ hIne]
        exact hIlast
      · intro habs
        rw [List.append_assoc] at habs
        rcases replicate_infix_split p k _ habs with h1 | h1 | ⟨i, j, hij, hi, hj, hsuf, hpre⟩
        · exact hprun h1
        · rcases replicate_infix_split (List.replicate m c) k _ h1 with
            h2 | h2 | ⟨i, j, hij, hi, hj, hsuf, hpre⟩
          · have hlen := h2.length_le
            rw [List.length_replicate, List.length_replicate] at hlen
            omega
          · exact hIrun h2
          · exact hIhead (head?_eq_of_run c hj hpre)
        · exact hplast (getLast?_eq_of_run c hi hsuf)

theorem run_not_prefix_mid {c : Char} {n : Nat} {p : Str}
    (hlast : p.getLast? ≠ some c) (hrun : ¬ (List.replicate n c <:+: p)) :
    ∀ i, i < p.length → ∀ t : Str, ¬ (List.replicate n c <+: (p.drop i ++ t)) := by
  intro i hi t habs
  by_cases hcase : n ≤ (p.drop i).length
  · have h1 : List.replicate n c <+: p.drop i :=
      (List.isPrefix_append_of_length (by rw [List.length_replicate]; exact hcase)).mp habs
    exact hrun (h1.isInfix.trans (List.drop_suffix i p).isInfix)
  · push_neg at hcase
    have hqlen : (p.drop i).length = p.length - i := List.length_drop i p
    have hqpos : 0 < (p.drop i).length := by omega
    obtain ⟨w, hw⟩ := habs
    have hq : p.drop i = List.replicate (p.drop i).length c := by
      have htake : p.drop i = List.take (p.drop i).length (List.replicate n c ++ w) := by
        rw [hw, List.take_left]
      rw [htake, List.take_append_of_le_length (by rw [List.length_replicate]; omega),
        List.take_replicate]
      congr 1
      rw [List.length_replicate]
    apply hlast
    obtain ⟨pre, hpre⟩ := List.drop_suffix i p
    rw [← hpre, List.getLast?_append_of_ne_nil _ (List.length_pos.mp hqpos), hq,
      List.getLast?_replicate]
    have hne0 : ¬ ((List.drop i p).length = 0) := by omega
    rw [if_neg hne0]

theorem splitSepCore_intercalate_runs {c : Char} {n : Nat} (hn : 0 < n) :
    ∀ (ps : List Str),
      (∀ p ∈ ps, p ≠ [] ∧ p.getLast? ≠ some c ∧ ¬ (List.replicate n c <:+: p)) →
      ps ≠ [] →
      splitSepCore (List.replicate n c) (List.intercalate (List.replicate n c) ps) [] 0 = ps := by
  have hsep : (List.replicate n c : Str) ≠ [] := replicate_pos_ne_nil hn
  intro ps
  induction ps with
  | nil => intro _ h; exact absurd rfl h
  | cons p ps' ih =>
    intro hall _
    obtain ⟨hpne, hplast, hprun⟩ := hall p (List.mem_cons_self p ps')
    cases ps' with
    | nil =>
      rw [intercalate_single, splitSepCore_single _ hprun, List.reverse_nil, List.nil_append]
    | cons q ps'' =>
      rw [intercalate_cons₂ _ _ _ (List.cons_ne_nil q ps''), List.append_assoc,
        splitSepCore_walk _ p _ [] (fun i hi => run_not_prefix_mid hplast hprun i hi _),
        List.append_nil, splitSepCore_consume _ hsep _ _, List.reverse_reverse,
        ih (fun r hr => hall r (List.mem_cons_of_mem p hr)) (List.cons_ne_nil q ps'')]

theorem pySplitSep_eq (sep s : Str) (hsep : sep ≠ []) :
    pySplitSep sep s = splitSepCore sep s [] 0 := by
  rw [pySplitSep, if_neg hsep]

theorem filter_nonempty_of_all {ps : List Str} (h : ∀ p ∈ ps, p ≠ []) :
    ps.filter (fun w => !w.isEmpty) = ps := by
  rw [List.filter_eq_self]
  intro a ha
  simp [List.isEmpty_iff, h a ha]


/-! ### Helper lemmas: line building -/

theorem popLast_concat (l : List Str) (a : Str) : popLast (l ++ [a]) = l := by
  rw [popLast, if_neg (by simp), List.dropLast_concat]

theorem popLast_append_right {l F : List Str} (h : F ≠ []) :
    popLast (l ++ F) = l ++ popLast F := by
  rw [popLast, popLast, if_neg (by simp [List.isEmpty_iff, h]),
    if_neg (by simp [List.isEmpty_iff, h])]
  exact List.dropLast_append_of_ne_nil _ h

theorem foldl_congr_mem {α β : Type} (f g : β → α → β) :
    ∀ (xs : List α) (b : β), (∀ b' x, x ∈ xs → f b' x = g b' x) →
      xs.foldl f b = xs.foldl g b := by
  intro xs
  induction xs with
  | nil => intro b _; rfl
  | cons x xs' ih =>
    intro b h
    rw [List.foldl_cons, List.foldl_cons, h b x (List.mem_cons_self x xs')]
    exact ih _ (fun b' y hy => h b' y (List.mem_cons_of_mem x hy))

theorem foldl_append_chunks {α : Type} (g : α → List Str) :
    ∀ (xs : List α) (l0 : List Str),
      xs.foldl (fun l x => l ++ g x) l0 = l0 ++ xs.flatMap g := by
  intro xs
  induction xs with
  | nil => intro l0; rw [List.foldl_nil, List.flatMap_nil, List.append_nil]
  | cons x xs' ih =>
    intro l0
    rw [List.foldl_cons, ih, List.flatMap_cons, List.append_assoc]

theorem flatMap_chunk_ne_nil {α : Type} (body : α → List Str) (sep : Str)
    {xs : List α} (h : xs ≠ []) :
    xs.flatMap (fun x => body x ++ [sep]) ≠ [] := by
  cases xs with
  | nil => exact absurd rfl h
  | cons x xs' =>
    rw [List.flatMap_cons]
    intro hnil
    rcases List.append_eq_nil.mp hnil with ⟨h1, _⟩
    rcases List.append_eq_nil.mp h1 with ⟨_, h2⟩
    exact List.cons_ne_nil _ _ h2

theorem flatten_popLast_flatMap {α : Type} (body : α → List Str) (sep : Str) :
    ∀ (xs : List α), xs ≠ [] →
      (popLast (xs.flatMap (fun x => body x ++ [sep]))).flatten =
        List.intercalate sep (xs.map (fun x => (body x).flatten)) := by
  intro xs
  induction xs with
  | nil => intro h; exact absurd rfl h
  | cons x xs' ih =>
    intro _
    cases xs' with
    | nil =>
      rw [List.flatMap_cons, List.flatMap_nil, List.append_nil, popLast_concat,
        List.map_cons, List.map_nil, intercalate_single]
    | cons y xs'' =>
      rw [List.flatMap_cons,
        popLast_append_right (flatMap_chunk_ne_nil body sep (List.cons_ne_nil y xs'')),
        List.flatten_append, List.flatten_append, List.flatten_cons, List.flatten_nil,
        List.append_nil, ih (List.cons_ne_nil y xs'')]
      have hR : List.intercalate sep (List.map (fun x => (body x).flatten) (x :: y :: xs'')) =
          (body x).flatten ++ sep ++
            List.intercalate sep (List.map (fun x => (body x).flatten) (y :: xs'')) := by
        rw [List.map_cons]
        exact intercalate_cons₂ _ _ _ (by simp)
      rw [hR, List.append_assoc]

/-! ### Helper lemmas: shapes of joined strings -/

theorem mem_intercalate_sep {sep : Str} {c : Char} :
    ∀ {ws : List Str}, c ∈ List.intercalate sep ws → (∃ w ∈ ws, c ∈ w) ∨ c ∈ sep := by
  intro ws
  induction ws with
  | nil =>
    intro h
    rw [show List.intercalate sep ([] : List Str) = [] from rfl] at h
    exact absurd h (List.not_mem_nil c)
  | cons w ws' ih =>
    intro h
    cases ws' with
    | nil =>
      rw [intercalate_single] at h
      exact Or.inl ⟨w, List.mem_cons_self w _, h⟩
    | cons w2 ws'' =>
      rw [intercalate_cons₂ _ _ _ (by simp)] at h
      rcases List.mem_append.mp h with h1 | h2
      · rcases List.mem_append.mp h1 with ha | hb
        · exact Or.inl ⟨w, List.mem_cons_self w _, ha⟩
        · exact Or.inr hb
      · rcases ih h2 with ⟨w', hw', hc⟩ | hs
        · exact Or.inl ⟨w', List.mem_cons_of_mem _ hw', hc⟩
        · exact Or.inr hs

theorem head?_intercalate {sep w : Str} (ws' : List Str) (hw : w ≠ []) :
    (List.intercalate sep (w :: ws')).head? = w.head? := by
  cases ws' with
  | nil => rw [intercalate_single]
  | cons q ws'' =>
    rw [intercalate_cons₂ _ _ _ (by simp),
      List.head?_append_of_ne_nil _ (by simp [hw]),
      List.head?_append_of_ne_nil _ hw]

theorem intercalate_ne_nil_of_head {sep w : Str} (ws' : List Str) (hw : w ≠ []) :
    List.intercalate sep (w :: ws') ≠ [] := by
  intro hnil
  have hh := @head?_intercalate sep w ws' hw
  rw [hnil] at hh
  cases w with
  | nil => exact hw rfl
  | cons c w0 => rw [List.head?_nil, List.head?_cons] at hh; exact Option.noConfusion hh

theorem getLast?_intercalate {sep : Str} :
    ∀ (ws : List Str), (∀ w ∈ ws, w ≠ []) → ws ≠ [] →
      ∃ w ∈ ws, (List.intercalate sep ws).getLast? = w.getLast? := by
  intro ws
  induction ws with
  | nil => intro _ h; exact absurd rfl h
  | cons w ws' ih =>
    intro hall _
    cases ws' with
    | nil =>
      rw [intercalate_single]
      exact ⟨w, List.mem_cons_self w _, rfl⟩
    | cons q ws'' =>
      obtain ⟨w', hw', hlast⟩ := ih (fun r hr => hall r (List.mem_cons_of_mem w hr))
        (List.cons_ne_nil q ws'')
      refine ⟨w', List.mem_cons_of_mem w hw', ?_⟩
      rw [intercalate_cons₂ _ _ _ (by simp),
        List.getLast?_append_of_ne_nil _
          (intercalate_ne_nil_of_head ws'' (hall q (by simp)))]
      exact hlast


/-! ### Helper lemmas: strip, splitlines, whitespace split -/

theorem dropWhile_eq_self_of_head {p : Char → Bool} {s : Str}
    (h : ∀ c, s.head? = some c → p c = false) : s.dropWhile p = s := by
  cases s with
  | nil => rfl
  | cons c rest =>
    rw [List.dropWhile_cons, if_neg (by simp [h c List.head?_cons])]

theorem pyStrip_eq_self {s : Str}
    (h1 : ∀ c, s.head? = some c → isSpaceChar c = false)
    (h2 : ∀ c, s.getLast? = some c → isSpaceChar c = false) : pyStrip s = s := by
  rw [pyStrip, dropWhile_eq_self_of_head h1, dropWhile_eq_self_of_head
    (by intro c hc; exact h2 c (by rw [← List.head?_reverse]; exact hc)),
    List.reverse_reverse]

theorem normalizeCRLF_eq_self : ∀ s : Str, ('\x0D' : Char) ∉ s → normalizeCRLF s = s := by
  intro s
  induction s with
  | nil => intro _; rfl
  | cons c rest ih =>
    intro h
    have hc : c ≠ '\x0D' := fun hh => h (hh ▸ List.mem_cons_self c rest)
    have hrest : ('\x0D' : Char) ∉ rest := fun hh => h (List.mem_cons_of_mem c hh)
    rw [normalizeCRLF.eq_3 c rest (fun _ hcr _ => hc hcr), ih hrest]

theorem pySplitlinesGo_no_boundary : ∀ (s acc : Str),
    (∀ c ∈ s, isLineBoundary c = false) →
    pySplitlinesGo acc s = [acc.reverse ++ s] := by
  intro s
  induction s with
  | nil =>
    intro acc _
    show [acc.reverse] = [acc.reverse ++ []]
    rw [List.append_nil]
  | cons c rest ih =>
    intro acc h
    show (if isLineBoundary c then _ else pySplitlinesGo (c :: acc) rest) = _
    rw [if_neg (by simp [h c (List.mem_cons_self c rest)]),
      ih (c :: acc) (fun d hd => h d (List.mem_cons_of_mem c hd)),
      List.reverse_cons, List.append_assoc, List.singleton_append]

theorem pySplitlines_single {s : Str} (hne : s ≠ [])
    (h : ∀ c ∈ s, isLineBoundary c = false) : pySplitlines s = [s] := by
  have hcr : ('\x0D' : Char) ∉ s := by
    intro hmem
    have := h _ hmem
    simp [isLineBoundary] at this
  rw [pySplitlines, if_neg (by simp [List.isEmpty_iff, hne]), normalizeCRLF_eq_self s hcr,
    pySplitlinesGo_no_boundary s [] h, List.reverse_nil, List.nil_append]

theorem splitOnP_of_no_sat {p : Char → Bool} {w : Str} (h : ∀ c ∈ w, p c = false) :
    List.splitOnP p w = [w] :=
  List.splitOnP_eq_single p w (fun x hx => by simp [h x hx])

theorem pySplitWS_intercalate :
    ∀ (ws : List Str), (∀ w ∈ ws, w ≠ [] ∧ ∀ c ∈ w, isSpaceChar c = false) →
      ws ≠ [] → pySplitWS (List.intercalate [' '] ws) = ws := by
  intro ws
  induction ws with
  | nil => intro _ h; exact absurd rfl h
  | cons w ws' ih =>
    intro hall _
    obtain ⟨hwne, hwns⟩ := hall w (List.mem_cons_self w _)
    cases ws' with
    | nil =>
      rw [intercalate_single, pySplitWS, splitOnP_of_no_sat hwns,
        filter_nonempty_of_all (by intro p hp; rw [List.mem_singleton.mp hp]; exact hwne)]
    | cons q ws'' =>
      have hI := ih (fun r hr => hall r (List.mem_cons_of_mem w hr)) (List.cons_ne_nil q ws'')
      have hsplit : List.splitOnP isSpaceChar
          (w ++ ' ' :: List.intercalate [' '] (q :: ws'')) =
          w :: List.splitOnP isSpaceChar (List.intercalate [' '] (q :: ws'')) :=
        List.splitOnP_first isSpaceChar w (fun x hx => by simp [hwns x hx]) ' ' (by decide) _
      rw [intercalate_cons₂ _ _ _ (by simp), List.append_assoc, List.singleton_append,
        pySplitWS, hsplit, List.filter_cons, if_pos (by simp [List.isEmpty_iff, hwne])]
      rw [pySplitWS] at hI
      rw [hI]


/-! ### C1: the round trip on upper-case alphanumeric texts -/

/-- The characters for which the round trip is claimed: upper-case Latin
letters and digits. -/
def UPPER36 : Str := S ("ABCDEFGHIJKLMNOPQRSTUVWXYZ0123456789")

/-- The encoding-table pattern of one character (default instance). -/
def patOf (c : Char) : Str := dictGet MC.encoding [c] []

/-- The Morse code `encode` produces for one word (default instance). -/
def wordCode (w : Str) : Str := List.intercalate [' '] (w.map patOf)

/-- The Morse code `encode` produces for a word sequence (default instance). -/
def codeOfWords (ws : List Str) : Str := List.intercalate (S ("   ")) (ws.map wordCode)

/-- A word of the claimed fragment: non-empty, over `UPPER36`. -/
def goodWord (w : Str) : Prop := w ≠ [] ∧ ∀ c ∈ w, c ∈ UPPER36

theorem upper36_facts : ∀ c ∈ UPPER36,
    dictHasKey MC.encoding [c] = true ∧
    patOf c ≠ [] ∧
    (∀ d ∈ patOf c, d = '.' ∨ d = '-') ∧
    dictGet MC.decoding (patOf c) MC.UNKNOWN_CHARACTER = [c] ∧
    Char.toUpper c = c ∧ isSpaceChar c = false ∧ isLineBoundary c = false := by
  decide

theorem flatMap_pair_ne_nil {α : Type} (f g : α → Str) {w : List α} (h : w ≠ []) :
    w.flatMap (fun c => [f c] ++ [g c]) ≠ [] := by
  cases w with
  | nil => exact absurd rfl h
  | cons c w' =>
    rw [List.flatMap_cons]
    simp

theorem encChar_fold (w : Str) (hw : ∀ c ∈ w, c ∈ UPPER36) (line : List Str) :
    w.foldl (encChar MC) line = line ++ w.flatMap (fun c => [patOf c] ++ [[' ']]) := by
  rw [foldl_congr_mem (encChar MC) (fun l c => l ++ ([patOf c] ++ [[' ']])) w line ?_]
  · exact foldl_append_chunks _ w line
  · intro l c hc
    obtain ⟨hkey, -⟩ := upper36_facts c (hw c hc)
    rw [encChar, if_pos hkey, if_neg (by decide), List.append_assoc]
    rfl

theorem encWord_fold (ws : List Str) (hws : ∀ w ∈ ws, goodWord w) (line : List Str) :
    ws.foldl (encWord MC) line =
      line ++ ws.flatMap (fun w =>
        popLast (w.flatMap (fun c => [patOf c] ++ [[' ']])) ++ [S ("   ")]) := by
  rw [foldl_congr_mem (encWord MC)
      (fun l w => l ++ (popLast (w.flatMap (fun c => [patOf c] ++ [[' ']])) ++ [S ("   ")]))
      ws line ?_]
  · exact foldl_append_chunks _ ws line
  · intro l w hw
    obtain ⟨hwne, hwc⟩ := hws w hw
    rw [encWord, encChar_fold w hwc l,
      popLast_append_right (flatMap_pair_ne_nil patOf (fun _ => [' ']) hwne),
      List.append_assoc]
    rfl

theorem identify_words_text (ws : List Str) (hws : ∀ w ∈ ws, goodWord w) :
    identify_string_type MC (List.intercalate [' '] ws) = .TEXT := by
  rw [identify_MC_eq]
  have hmem : ∀ c ∈ nonWS (List.intercalate [' '] ws), c ∈ UPPER36 := by
    intro c hc
    rw [nonWS, List.mem_filter] at hc
    rcases mem_intercalate_sep hc.1 with ⟨w, hw, hcw⟩ | hsep
    · exact (hws w hw).2 c hcw
    · exfalso
      have hsp : c = ' ' := List.mem_singleton.mp hsep
      subst hsp
      simp [isSpaceChar] at hc
  rw [if_neg ?_, if_neg ?_]
  · intro hh
    have hset := (setEqPair_iff _ _ _).mp hh
    have hd : ('█' : Char) ∈ nonWS (List.intercalate [' '] ws) := (hset '█').mpr (Or.inl rfl)
    have := hmem _ hd
    exact absurd this (by decide)
  · intro hh
    have hset := (setEqPair_iff _ _ _).mp hh
    have hd : ('.' : Char) ∈ nonWS (List.intercalate [' '] ws) := (hset '.').mpr (Or.inl rfl)
    have := hmem _ hd
    exact absurd this (by decide)

theorem encodeText_words (ws : List Str) (hne : ws ≠ [])
    (hws : ∀ w ∈ ws, goodWord w) :
    encodeText MC (List.intercalate [' '] ws) = codeOfWords ws := by
  obtain ⟨w0, ws0, rfl⟩ : ∃ w0 ws0, ws = w0 :: ws0 := by
    cases ws with
    | nil => exact absurd rfl hne
    | cons w0 ws0 => exact ⟨w0, ws0, rfl⟩
  set t := List.intercalate [' '] (w0 :: ws0) with ht
  have hchars : ∀ c ∈ t, c ∈ UPPER36 ∨ c = ' ' := by
    intro c hc
    rcases mem_intercalate_sep hc with ⟨w, hw, hcw⟩ | hsep
    · exact Or.inl ((hws w hw).2 c hcw)
    · exact Or.inr (List.mem_singleton.mp hsep)
  have hnb : ∀ c ∈ t, isLineBoundary c = false := by
    intro c hc
    rcases hchars c hc with h | h
    · exact (upper36_facts c h).2.2.2.2.2.2
    · subst h
      decide
  have hhead : ∀ c, t.head? = some c → isSpaceChar c = false := by
    intro c hc
    rw [ht, head?_intercalate ws0 (hws w0 (List.mem_cons_self w0 ws0)).1] at hc
    have hcw : c ∈ w0 := List.mem_of_mem_head? (Option.mem_def.mpr hc)
    exact (upper36_facts c ((hws w0 (List.mem_cons_self w0 ws0)).2 c hcw)).2.2.2.2.2.1
  have hlast : ∀ c, t.getLast? = some c → isSpaceChar c = false := by
    intro c hc
    obtain ⟨w, hw, hwl⟩ := getLast?_intercalate (w0 :: ws0)
      (fun w hw => (hws w hw).1) (List.cons_ne_nil w0 ws0)
    rw [ht, hwl] at hc
    have hcw : c ∈ w := List.mem_of_mem_getLast? (Option.mem_def.mpr hc)
    exact (upper36_facts c ((hws w hw).2 c hcw)).2.2.2.2.2.1
  have htne : t ≠ [] := intercalate_ne_nil_of_head ws0 (hws w0 (List.mem_cons_self w0 ws0)).1
  have hup : pyUpper t = t := by
    rw [pyUpper]
    have hfix : ∀ c ∈ t, Char.toUpper c = c := by
      intro c hc
      rcases hchars c hc with h | h
      · exact (upper36_facts c h).2.2.2.2.1
      · subst h
        decide
    rw [List.map_congr_left hfix]
    exact List.map_id' t
  have hpw : pySplitWS t = w0 :: ws0 := by
    rw [ht]
    refine pySplitWS_intercalate (w0 :: ws0) ?_ (List.cons_ne_nil w0 ws0)
    intro w hw
    refine ⟨(hws w hw).1, ?_⟩
    intro c hc
    exact (upper36_facts c ((hws w hw).2 c hc)).2.2.2.2.2.1
  have hpar : (if MC.PARAGRAPHS_IN_MORSE_CODE then (['\n'] : Str) else MC.word_gap) =
      ['\n'] := rfl
  rw [encodeText, pyStrip_eq_self hhead hlast, pySplitlines_single htne hnb,
    List.foldl_cons, List.foldl_nil, encPara, hup, hpw,
    encWord_fold (w0 :: ws0) hws [], List.nil_append, hpar, popLast_concat,
    flatten_popLast_flatMap (fun w => popLast (w.flatMap (fun c => [patOf c] ++ [[' ']])))
      (S ("   ")) (w0 :: ws0) (List.cons_ne_nil w0 ws0)]
  rw [codeOfWords]
  congr 1
  apply List.map_congr_left
  intro w hw
  rw [flatten_popLast_flatMap (fun c => [patOf c]) [' '] w (hws w hw).1, wordCode]
  congr 1
  apply List.map_congr_left
  intro c _
  simp


theorem patOf_not_space {c : Char} (hc : c ∈ UPPER36) : ' ' ∉ patOf c := by
  intro hm
  rcases (upper36_facts c hc).2.2.1 ' ' hm with h | h <;> exact absurd h (by decide)

theorem wordCode_ne_nil {w : Str} (hw : goodWord w) : wordCode w ≠ [] := by
  obtain ⟨c0, w', rfl⟩ : ∃ c0 w', w = c0 :: w' := by
    cases w with
    | nil => exact absurd rfl hw.1
    | cons c0 w' => exact ⟨c0, w', rfl⟩
  rw [wordCode, List.map_cons]
  exact intercalate_ne_nil_of_head _
    (upper36_facts c0 (hw.2 c0 (List.mem_cons_self c0 w'))).2.1

theorem wordCode_chars {w : Str} (hw : goodWord w) :
    ∀ c ∈ wordCode w, c = '.' ∨ c = '-' ∨ c = ' ' := by
  intro c hc
  rcases mem_intercalate_sep hc with ⟨p, hp, hcp⟩ | hsep
  · obtain ⟨ch, hch, rfl⟩ := List.mem_map.mp hp
    rcases (upper36_facts ch (hw.2 ch hch)).2.2.1 c hcp with h | h
    · exact Or.inl h
    · exact Or.inr (Or.inl h)
  · exact Or.inr (Or.inr (List.mem_singleton.mp hsep))

theorem wordCode_head {w : Str} (hw : goodWord w) :
    ∀ c, (wordCode w).head? = some c → c = '.' ∨ c = '-' := by
  obtain ⟨c0, w', rfl⟩ : ∃ c0 w', w = c0 :: w' := by
    cases w with
    | nil => exact absurd rfl hw.1
    | cons c0 w' => exact ⟨c0, w', rfl⟩
  intro c hc
  rw [wordCode, List.map_cons,
    head?_intercalate _ (upper36_facts c0 (hw.2 c0 (List.mem_cons_self c0 w'))).2.1] at hc
  exact (upper36_facts c0 (hw.2 c0 (List.mem_cons_self c0 w'))).2.2.1 c
    (List.mem_of_mem_head? (Option.mem_def.mpr hc))

theorem wordCode_getLast {w : Str} (hw : goodWord w) :
    ∀ c, (wordCode w).getLast? = some c → c = '.' ∨ c = '-' := by
  intro c hc
  obtain ⟨p, hp, hlast⟩ := getLast?_intercalate (w.map patOf)
    (fun p hp => by
      obtain ⟨ch, hch, rfl⟩ := List.mem_map.mp hp
      exact (upper36_facts ch (hw.2 ch hch)).2.1)
    (by simp [hw.1])
  rw [wordCode, hlast] at hc
  obtain ⟨ch, hch, rfl⟩ := List.mem_map.mp hp
  exact (upper36_facts ch (hw.2 ch hch)).2.2.1 c
    (List.mem_of_mem_getLast? (Option.mem_def.mpr hc))

theorem wordCode_runfree {w : Str} (hw : goodWord w) : RunFree ' ' 2 (wordCode w) := by
  rw [wordCode]
  have h1 : ([' '] : Str) = List.replicate 1 ' ' := rfl
  rw [h1]
  refine runFree_intercalate (by omega) (w.map patOf) ?_ (by simp [hw.1])
  intro p hp
  obtain ⟨ch, hch, rfl⟩ := List.mem_map.mp hp
  exact runFree_of_not_mem (by omega) (upper36_facts ch (hw.2 ch hch)).2.1
    (patOf_not_space (hw.2 ch hch))

theorem flatten_flatMap_singleton :
    ∀ (w : Str), (w.flatMap (fun ch => [[ch]])).flatten = w := by
  intro w
  induction w with
  | nil => rfl
  | cons c w' ih =>
    rw [List.flatMap_cons, List.flatten_append, ih]
    rfl

theorem decWord_wordCode (w : Str) (hw : goodWord w) (line : List Str) :
    decWord MC line (wordCode w) = line ++ (w.flatMap (fun ch => [[ch]]) ++ [[' ']]) := by
  rw [decWord]
  have hcg : MC.character_gap = List.replicate 1 ' ' := rfl
  have hsplit : pySplitSep MC.character_gap (wordCode w) = w.map patOf := by
    rw [hcg, pySplitSep_eq _ _ (by decide), wordCode]
    have h1 : ([' '] : Str) = List.replicate 1 ' ' := rfl
    rw [h1]
    refine splitSepCore_intercalate_runs (by omega) (w.map patOf) ?_ (by simp [hw.1])
    intro p hp
    obtain ⟨ch, hch, rfl⟩ := List.mem_map.mp hp
    refine ⟨(upper36_facts ch (hw.2 ch hch)).2.1, ?_, ?_⟩
    · intro hl
      exact patOf_not_space (hw.2 ch hch)
        (List.mem_of_mem_getLast? (Option.mem_def.mpr hl))
    · intro habs
      exact patOf_not_space (hw.2 ch hch)
        (habs.subset (List.mem_replicate.mpr ⟨by omega, rfl⟩))
  rw [hsplit, filter_nonempty_of_all (fun p hp => by
      obtain ⟨ch, hch, rfl⟩ := List.mem_map.mp hp
      exact (upper36_facts ch (hw.2 ch hch)).2.1),
    List.foldl_map]
  rw [foldl_congr_mem (fun l ch => decChar MC l (patOf ch)) (fun l ch => l ++ [[ch]])
    w line ?_]
  · rw [foldl_append_chunks (fun ch => [[ch]]) w line, List.append_assoc]
  · intro l ch hch
    show decChar MC l (patOf ch) = l ++ [[ch]]
    rw [decChar, if_neg (by decide), (upper36_facts ch (hw.2 ch hch)).2.2.2.1]

theorem decodeRaw_codeOfWords (ws : List Str) (hne : ws ≠ [])
    (hws : ∀ w ∈ ws, goodWord w) :
    decodeRaw MC (codeOfWords ws) = List.intercalate [' '] ws := by
  obtain ⟨w0, ws0, rfl⟩ : ∃ w0 ws0, ws = w0 :: ws0 := by
    cases ws with
    | nil => exact absurd rfl hne
    | cons w0 ws0 => exact ⟨w0, ws0, rfl⟩
  set e := codeOfWords (w0 :: ws0) with he
  have hechar : ∀ c ∈ e, c = '.' ∨ c = '-' ∨ c = ' ' := by
    intro c hc
    rw [he, codeOfWords] at hc
    rcases mem_intercalate_sep hc with ⟨wc, hwc, hcw⟩ | hsep
    · obtain ⟨w, hw, rfl⟩ := List.mem_map.mp hwc
      exact wordCode_chars (hws w hw) c hcw
    · have : c ∈ ([' ', ' ', ' '] : Str) := hsep
      simp at this
      exact Or.inr (Or.inr this)
  have hw0 : goodWord w0 := hws w0 (List.mem_cons_self w0 ws0)
  have hhead : ∀ c, e.head? = some c → isSpaceChar c = false := by
    intro c hc
    rw [he, codeOfWords, List.map_cons, head?_intercalate _ (wordCode_ne_nil hw0)] at hc
    rcases wordCode_head hw0 c hc with h | h <;> (subst h; decide)
  have hlast : ∀ c, e.getLast? = some c → isSpaceChar c = false := by
    intro c hc
    obtain ⟨wc, hwc, hlast'⟩ := getLast?_intercalate ((w0 :: ws0).map wordCode)
      (fun p hp => by
        obtain ⟨w, hw, rfl⟩ := List.mem_map.mp hp
        exact wordCode_ne_nil (hws w hw))
      (by simp)
    rw [he, codeOfWords, hlast'] at hc
    obtain ⟨w, hw, rfl⟩ := List.mem_map.mp hwc
    rcases wordCode_getLast (hws w hw) c hc with h | h <;> (subst h; decide)
  have hene : e ≠ [] := by
    rw [he, codeOfWords, List.map_cons]
    exact intercalate_ne_nil_of_head _ (wordCode_ne_nil hw0)
  have hnb : ∀ c ∈ e, isLineBoundary c = false := by
    intro c hc
    rcases hechar c hc with h | h | h <;> (subst h; decide)
  have hwg : MC.word_gap = List.replicate 3 ' ' := rfl
  have hsplit : pySplitSep MC.word_gap e = (w0 :: ws0).map wordCode := by
    rw [hwg, pySplitSep_eq _ _ (by decide), he, codeOfWords]
    have h3 : (S ("   ")) = List.replicate 3 ' ' := rfl
    rw [h3]
    refine splitSepCore_intercalate_runs (by omega) _ ?_ (by simp)
    intro p hp
    obtain ⟨w, hw, rfl⟩ := List.mem_map.mp hp
    obtain ⟨hne', -, hlast', hrun2⟩ := wordCode_runfree (hws w hw)
    exact ⟨hne', hlast', not_run_mono (by omega) hrun2⟩
  rw [decodeRaw, pyStrip_eq_self hhead hlast, pySplitlines_single hene hnb,
    List.foldl_cons, List.foldl_nil, decPara, hsplit,
    filter_nonempty_of_all (fun p hp => by
      obtain ⟨w, hw, rfl⟩ := List.mem_map.mp hp
      exact wordCode_ne_nil (hws w hw)),
    List.foldl_map,
    foldl_congr_mem (fun l w => decWord MC l (wordCode w))
      (fun l w => l ++ (w.flatMap (fun ch => [[ch]]) ++ [[' ']])) (w0 :: ws0) []
      (fun l w hw => decWord_wordCode w (hws w hw) l),
    foldl_append_chunks _ (w0 :: ws0) [], List.nil_append, popLast_concat,
    flatten_popLast_flatMap (fun w => w.flatMap (fun ch => [[ch]])) [' '] (w0 :: ws0)
      (List.cons_ne_nil w0 ws0)]
  congr 1
  rw [List.map_congr_left (fun w _ => flatten_flatMap_singleton w)]
  exact List.map_id' _

/-- C1: decode ∘ encode on an upper-case alphanumeric text with single spaces
does NOT reproduce the text up to the first letter's capitalization only:
`decode (encode "AB") = "Ab"` differs from `"AB"` at position 1, not
position 0 (Python `str.capitalize` lower-cases the tail). -/
theorem C1_counterexample :
    decode MC (encode MC (S ("AB"))) = S ("Ab") ∧
    S ("Ab") ≠ S ("AB") ∧
    (decode MC (encode MC (S ("AB")))).take 1 = (S ("AB")).take 1 := by
  refine ⟨by decide, by decide, by decide⟩


/-- C1 (amended): for a non-empty sequence of non-empty words over the
upper-case letters and digits, joined by single spaces, whose encoded form is
classified as Morse code, `decode (encode t)` is the Python-capitalize of `t`:
the first character upper-cased and every later character lower-cased — not
`t` itself, and not `t` changed only at its first letter. -/
theorem C1_amended (ws : List Str) (hne : ws ≠ []) (hws : ∀ w ∈ ws, goodWord w)
    (hcode : identify_string_type MC (encode MC (List.intercalate [' '] ws)) =
      .MORSE_CODE) :
    decode MC (encode MC (List.intercalate [' '] ws)) =
      pyCapitalize (List.intercalate [' '] ws) := by
  have henc : encode MC (List.intercalate [' '] ws) = codeOfWords ws := by
    rw [encode, identify_words_text ws hws]
    exact encodeText_words ws hne hws
  rw [henc] at hcode ⊢
  rw [decode, hcode]
  show decodeCode MC (codeOfWords ws) = _
  rw [decodeCode, decodeRaw_codeOfWords ws hne hws]

theorem C1_amended_witness :
    decode MC (encode MC (List.intercalate [' '] [S ("AB"), S ("CD")])) =
      pyCapitalize (List.intercalate [' '] [S ("AB"), S ("CD")]) :=
  C1_amended [S ("AB"), S ("CD")] (by decide)
    (by
      intro w hw
      rcases List.mem_cons.mp hw with h | h
      · subst h
        exact ⟨by decide, by decide⟩
      · rcases List.mem_cons.mp h with h' | h'
        · subst h'
          exact ⟨by decide, by decide⟩
        · exact absurd h' (List.not_mem_nil w))
    (by decide)


/-! ### C4: the canonical signal of a Morse-code string -/

/-- The on-run `signal` emits for one dot/dash symbol (default instance). -/
def symSig (d : Char) : Str :=
  if d = MC.dot then repChar MC.signal_on MC.dot_timing
  else repChar MC.signal_on MC.dash_timing

/-- The signal of one character pattern: on-runs joined by bit-timing
off-runs. -/
def charSigStr (ch : Char) : Str :=
  List.intercalate (repChar MC.signal_off MC.bit_timing) ((patOf ch).map symSig)

/-- The signal of one word code: character signals joined by
character-timing off-runs. -/
def wordSig (w : Str) : Str :=
  List.intercalate (repChar MC.signal_off MC.character_timing) (w.map charSigStr)

/-- The signal of a word sequence: word signals joined by word-timing
off-runs. -/
def sigOfWords (ws : List Str) : Str :=
  List.intercalate (repChar MC.signal_off MC.word_timing) (ws.map wordSig)

theorem symSig_ne_nil (d : Char) : symSig d ≠ [] := by
  rw [symSig]
  by_cases h : d = MC.dot
  · rw [if_pos h]
    decide
  · rw [if_neg h]
    decide

theorem symSig_no_off (d : Char) : '_' ∉ symSig d := by
  rw [symSig]
  by_cases h : d = MC.dot
  · rw [if_pos h]
    decide
  · rw [if_neg h]
    decide

theorem runFree_mono {c : Char} {k k' : Nat} (hkk : k ≤ k') {p : Str}
    (h : RunFree c k p) : RunFree c k' p :=
  ⟨h.1, h.2.1, h.2.2.1, not_run_mono hkk h.2.2.2⟩

theorem charSigStr_ne_nil {ch : Char} (hch : ch ∈ UPPER36) : charSigStr ch ≠ [] := by
  obtain ⟨d0, p', hp⟩ : ∃ d0 p', patOf ch = d0 :: p' := by
    cases hpat : patOf ch with
    | nil => exact absurd hpat (upper36_facts ch hch).2.1
    | cons d0 p' => exact ⟨d0, p', rfl⟩
  rw [charSigStr, hp, List.map_cons]
  exact intercalate_ne_nil_of_head _ (symSig_ne_nil d0)

theorem charSigStr_runfree {ch : Char} (hch : ch ∈ UPPER36) :
    RunFree '_' 2 (charSigStr ch) := by
  rw [charSigStr]
  have h1 : repChar MC.signal_off MC.bit_timing = List.replicate 1 '_' := rfl
  rw [h1]
  refine runFree_intercalate (by omega) _ ?_ (by simp [(upper36_facts ch hch).2.1])
  intro p hp
  obtain ⟨d, hd, rfl⟩ := List.mem_map.mp hp
  exact runFree_of_not_mem (by omega) (symSig_ne_nil d) (symSig_no_off d)

theorem wordSig_ne_nil {w : Str} (hw : goodWord w) : wordSig w ≠ [] := by
  obtain ⟨c0, w', rfl⟩ : ∃ c0 w', w = c0 :: w' := by
    cases w with
    | nil => exact absurd rfl hw.1
    | cons c0 w' => exact ⟨c0, w', rfl⟩
  rw [wordSig, List.map_cons]
  exact intercalate_ne_nil_of_head _
    (charSigStr_ne_nil (hw.2 c0 (List.mem_cons_self c0 w')))

theorem wordSig_runfree {w : Str} (hw : goodWord w) : RunFree '_' 4 (wordSig w) := by
  rw [wordSig]
  have h3 : repChar MC.signal_off MC.character_timing = List.replicate 3 '_' := rfl
  rw [h3]
  refine runFree_intercalate (by omega) _ ?_ (by simp [hw.1])
  intro p hp
  obtain ⟨ch, hch, rfl⟩ := List.mem_map.mp hp
  exact runFree_mono (by omega) (charSigStr_runfree (hw.2 ch hch))

theorem split_word_gap_codeOfWords (ws : List Str) (hne : ws ≠ [])
    (hws : ∀ w ∈ ws, goodWord w) :
    pySplitSep MC.word_gap (codeOfWords ws) = ws.map wordCode := by
  have hwg : MC.word_gap = List.replicate 3 ' ' := rfl
  have h3 : (S ("   ")) = List.replicate 3 ' ' := rfl
  rw [hwg, pySplitSep_eq _ _ (by decide), codeOfWords, h3]
  refine splitSepCore_intercalate_runs (by omega) _ ?_ (by simp [hne])
  intro p hp
  obtain ⟨w, hw, rfl⟩ := List.mem_map.mp hp
  obtain ⟨hne', -, hlast', hrun2⟩ := wordCode_runfree (hws w hw)
  exact ⟨hne', hlast', not_run_mono (by omega) hrun2⟩

theorem split_char_gap_wordCode (w : Str) (hw : goodWord w) :
    pySplitSep MC.character_gap (wordCode w) = w.map patOf := by
  have hcg : MC.character_gap = List.replicate 1 ' ' := rfl
  have h1 : ([' '] : Str) = List.replicate 1 ' ' := rfl
  rw [hcg, pySplitSep_eq _ _ (by decide), wordCode, h1]
  refine splitSepCore_intercalate_runs (by omega) (w.map patOf) ?_ (by simp [hw.1])
  intro p hp
  obtain ⟨ch, hch, rfl⟩ := List.mem_map.mp hp
  refine ⟨(upper36_facts ch (hw.2 ch hch)).2.1, ?_, ?_⟩
  · intro hl
    exact patOf_not_space (hw.2 ch hch)
      (List.mem_of_mem_getLast? (Option.mem_def.mpr hl))
  · intro habs
    exact patOf_not_space (hw.2 ch hch)
      (habs.subset (List.mem_replicate.mpr ⟨by omega, rfl⟩))

theorem split_word_off_sigOfWords (ws : List Str) (hne : ws ≠ [])
    (hws : ∀ w ∈ ws, goodWord w) :
    pySplitSep (repChar MC.signal_off MC.word_timing) (sigOfWords ws) =
      ws.map wordSig := by
  have h7 : repChar MC.signal_off MC.word_timing = List.replicate 7 '_' := rfl
  rw [sigOfWords, h7, pySplitSep_eq _ _ (replicate_pos_ne_nil (by omega))]
  refine splitSepCore_intercalate_runs (by omega) _ ?_ (by simp [hne])
  intro p hp
  obtain ⟨w, hw, rfl⟩ := List.mem_map.mp hp
  obtain ⟨hne', -, hlast', hrun4⟩ := wordSig_runfree (hws w hw)
  exact ⟨hne', hlast', not_run_mono (by omega) hrun4⟩

theorem split_char_off_wordSig (w : Str) (hw : goodWord w) :
    pySplitSep (repChar MC.signal_off MC.character_timing) (wordSig w) =
      w.map charSigStr := by
  have h3 : repChar MC.signal_off MC.character_timing = List.replicate 3 '_' := rfl
  rw [wordSig, h3, pySplitSep_eq _ _ (replicate_pos_ne_nil (by omega))]
  refine splitSepCore_intercalate_runs (by omega) _ ?_ (by simp [hw.1])
  intro p hp
  obtain ⟨ch, hch, rfl⟩ := List.mem_map.mp hp
  obtain ⟨hne', -, hlast', hrun2⟩ := charSigStr_runfree (hw.2 ch hch)
  exact ⟨hne', hlast', not_run_mono (by omega) hrun2⟩

theorem split_bit_off_charSigStr (ch : Char) (hch : ch ∈ UPPER36) :
    pySplitSep (repChar MC.signal_off MC.bit_timing) (charSigStr ch) =
      (patOf ch).map symSig := by
  have h1 : repChar MC.signal_off MC.bit_timing = List.replicate 1 '_' := rfl
  rw [charSigStr, h1, pySplitSep_eq _ _ (replicate_pos_ne_nil (by omega))]
  refine splitSepCore_intercalate_runs (by omega) _ ?_
    (by simp [(upper36_facts ch hch).2.1])
  intro p hp
  obtain ⟨d, hd, rfl⟩ := List.mem_map.mp hp
  refine ⟨symSig_ne_nil d, ?_, ?_⟩
  · intro hl
    exact symSig_no_off d (List.mem_of_mem_getLast? (Option.mem_def.mpr hl))
  · intro habs
    exact symSig_no_off d (habs.subset (List.mem_replicate.mpr ⟨by omega, rfl⟩))


theorem codeOfWords_chars (ws : List Str) (hws : ∀ w ∈ ws, goodWord w) :
    ∀ c ∈ codeOfWords ws, c = '.' ∨ c = '-' ∨ c = ' ' := by
  intro c hc
  rw [codeOfWords] at hc
  rcases mem_intercalate_sep hc with ⟨wc, hwc, hcw⟩ | hsep
  · obtain ⟨w, hw, rfl⟩ := List.mem_map.mp hwc
    exact wordCode_chars (hws w hw) c hcw
  · have hmem : c ∈ ([' ', ' ', ' '] : Str) := hsep
    simp at hmem
    exact Or.inr (Or.inr hmem)

theorem pyReplace_no_occ (old new s : Str) (hold : old ≠ []) (h : ¬ (old <:+: s)) :
    pyReplace old new s = s := by
  rw [pyReplace, if_neg hold, pySplitSep_eq _ _ hold, splitSepCore_single old h [],
    List.reverse_nil, List.nil_append, intercalate_single]

/-- The on-run block structure `signal` builds for one character. -/
def charBlock (ch : Char) : List Str :=
  popLast ((patOf ch).flatMap
    (fun d => [symSig d] ++ [repChar MC.signal_off MC.bit_timing]))

/-- The on-run block structure `signal` builds for one word. -/
def wordBlock (w : Str) : List Str :=
  popLast (w.flatMap
    (fun ch => charBlock ch ++ [repChar MC.signal_off MC.character_timing]))

theorem sigSym_fold (p : Str) (line : List Str) :
    p.foldl (sigSym MC) line =
      line ++ p.flatMap (fun d => [symSig d] ++ [repChar MC.signal_off MC.bit_timing]) := by
  rw [foldl_congr_mem (sigSym MC)
    (fun l d => l ++ ([symSig d] ++ [repChar MC.signal_off MC.bit_timing])) p line ?_]
  · exact foldl_append_chunks _ p line
  · intro l d _
    rw [sigSym, List.append_assoc]
    rfl

theorem sigChar_charSig (ch : Char) (hch : ch ∈ UPPER36) (line : List Str) :
    sigChar MC line (patOf ch) =
      line ++ (charBlock ch ++ [repChar MC.signal_off MC.character_timing]) := by
  rw [sigChar, if_neg (by decide), sigSym_fold,
    popLast_append_right (flatMap_pair_ne_nil symSig
      (fun _ => repChar MC.signal_off MC.bit_timing) (upper36_facts ch hch).2.1),
    List.append_assoc]
  rfl

theorem sigWord_wordCode (w : Str) (hw : goodWord w) (line : List Str) :
    sigWord MC line (wordCode w) =
      line ++ (wordBlock w ++ [repChar MC.signal_off MC.word_timing]) := by
  rw [sigWord, split_char_gap_wordCode w hw,
    filter_nonempty_of_all (fun p hp => by
      obtain ⟨ch, hch, rfl⟩ := List.mem_map.mp hp
      exact (upper36_facts ch (hw.2 ch hch)).2.1),
    List.foldl_map]
  rw [foldl_congr_mem (fun l ch => sigChar MC l (patOf ch))
    (fun l ch => l ++ (charBlock ch ++ [repChar MC.signal_off MC.character_timing]))
    w line ?_]
  · rw [foldl_append_chunks _ w line,
      popLast_append_right (flatMap_chunk_ne_nil charBlock _ hw.1),
      List.append_assoc]
    rfl
  · intro l ch hch
    show sigChar MC l (patOf ch) = _
    rw [sigChar_charSig ch (hw.2 ch hch) l]

theorem signalFromCode_codeOfWords (ws : List Str) (hne : ws ≠ [])
    (hws : ∀ w ∈ ws, goodWord w) :
    signalFromCode MC (codeOfWords ws) = sigOfWords ws := by
  have hnl : pyReplace ['\n'] MC.word_gap (codeOfWords ws) = codeOfWords ws := by
    refine pyReplace_no_occ _ _ _ (by decide) ?_
    intro habs
    have hmem : '\n' ∈ codeOfWords ws :=
      habs.subset (List.mem_singleton_self '\n')
    rcases codeOfWords_chars ws hws '\n' hmem with h | h | h <;> exact absurd h (by decide)
  rw [signalFromCode, hnl, split_word_gap_codeOfWords ws hne hws,
    filter_nonempty_of_all (fun p hp => by
      obtain ⟨w, hw, rfl⟩ := List.mem_map.mp hp
      exact wordCode_ne_nil (hws w hw)),
    List.foldl_map]
  rw [foldl_congr_mem (fun l w => sigWord MC l (wordCode w))
    (fun l w => l ++ (wordBlock w ++ [repChar MC.signal_off MC.word_timing])) ws [] ?_]
  · rw [foldl_append_chunks _ ws [], List.nil_append,
      flatten_popLast_flatMap wordBlock (repChar MC.signal_off MC.word_timing) ws hne,
      sigOfWords]
    congr 1
    apply List.map_congr_left
    intro w hw
    rw [wordBlock,
      flatten_popLast_flatMap charBlock (repChar MC.signal_off MC.character_timing)
        w (hws w hw).1,
      wordSig]
    congr 1
    apply List.map_congr_left
    intro ch hch
    rw [charBlock,
      flatten_popLast_flatMap (fun d => [symSig d]) (repChar MC.signal_off MC.bit_timing)
        (patOf ch) (upper36_facts ch ((hws w hw).2 ch hch)).2.1,
      charSigStr]
    congr 1
    apply List.map_congr_left
    intro d _
    simp
  · intro l w hw
    show sigWord MC l (wordCode w) = _
    rw [sigWord_wordCode w (hws w hw) l]


/-- The token block structure `from_signal` builds for one character. -/
def chBits (ch : Char) : List Str :=
  popLast ((patOf ch).flatMap (fun d => [[d]] ++ [MC.bit_gap]))

theorem fsBit_fold (p : Str) (halpha : ∀ d ∈ p, d = '.' ∨ d = '-') (line : List Str) :
    (p.map symSig).foldl (fsBit MC) line =
      line ++ p.flatMap (fun d => [[d]] ++ [MC.bit_gap]) := by
  rw [List.foldl_map]
  rw [foldl_congr_mem (fun l d => fsBit MC l (symSig d))
    (fun l d => l ++ ([[d]] ++ [MC.bit_gap])) p line ?_]
  · exact foldl_append_chunks _ p line
  · intro l d hd
    show fsBit MC l (symSig d) = _
    rcases halpha d hd with rfl | rfl
    · rw [fsBit, if_pos (by decide), List.append_assoc]
      rfl
    · rw [fsBit, if_neg (by decide), List.append_assoc]
      rfl

theorem fsChar_charSigStr (ch : Char) (hch : ch ∈ UPPER36) (line : List Str) :
    fsChar MC line (charSigStr ch) =
      line ++ (chBits ch ++ [MC.character_gap]) := by
  rw [fsChar, split_bit_off_charSigStr ch hch,
    filter_nonempty_of_all (fun b hb => by
      obtain ⟨d, hd, rfl⟩ := List.mem_map.mp hb
      exact symSig_ne_nil d),
    fsBit_fold (patOf ch) (fun d hd => (upper36_facts ch hch).2.2.1 d hd) line,
    popLast_append_right (flatMap_pair_ne_nil (fun d => [d]) (fun _ => MC.bit_gap)
      (upper36_facts ch hch).2.1),
    List.append_assoc]
  rfl

theorem fsWord_wordSig (w : Str) (hw : goodWord w) (line : List Str) :
    fsWord MC line (wordSig w) =
      line ++ (popLast (w.flatMap (fun ch => chBits ch ++ [MC.character_gap])) ++
        [MC.word_gap]) := by
  rw [fsWord, split_char_off_wordSig w hw,
    filter_nonempty_of_all (fun p hp => by
      obtain ⟨ch, hch, rfl⟩ := List.mem_map.mp hp
      exact charSigStr_ne_nil (hw.2 ch hch)),
    List.foldl_map]
  rw [foldl_congr_mem (fun l ch => fsChar MC l (charSigStr ch))
    (fun l ch => l ++ (chBits ch ++ [MC.character_gap])) w line ?_]
  · rw [foldl_append_chunks _ w line,
      popLast_append_right (flatMap_chunk_ne_nil chBits MC.character_gap hw.1),
      List.append_assoc]
  · intro l ch hc
    show fsChar MC l (charSigStr ch) = _
    rw [fsChar_charSigStr ch (hw.2 ch hc) l]

theorem intercalate_nil_flatten_singletons :
    ∀ (p : Str), List.intercalate [] (p.map (fun d => ([[d]] : List Str).flatten)) = p := by
  intro p
  induction p with
  | nil => rfl
  | cons c p' ih =>
    cases p' with
    | nil =>
      rw [List.map_cons, List.map_nil, intercalate_single]
      simp
    | cons d p'' =>
      rw [List.map_cons, intercalate_cons₂ _ _ _ (by simp), ih]
      simp

theorem from_signal_core_sigOfWords (ws : List Str) (hne : ws ≠ [])
    (hws : ∀ w ∈ ws, goodWord w) :
    from_signal_core MC (sigOfWords ws) = codeOfWords ws := by
  rw [from_signal_core, split_word_off_sigOfWords ws hne hws,
    filter_nonempty_of_all (fun p hp => by
      obtain ⟨w, hw, rfl⟩ := List.mem_map.mp hp
      exact wordSig_ne_nil (hws w hw)),
    List.foldl_map]
  rw [foldl_congr_mem (fun l w => fsWord MC l (wordSig w))
    (fun l w => l ++ (popLast (w.flatMap (fun ch => chBits ch ++ [MC.character_gap])) ++
      [MC.word_gap])) ws [] ?_]
  · rw [foldl_append_chunks _ ws [], List.nil_append,
      flatten_popLast_flatMap
        (fun w => popLast (w.flatMap (fun ch => chBits ch ++ [MC.character_gap])))
        MC.word_gap ws hne]
    have hwg : MC.word_gap = S ("   ") := rfl
    rw [hwg, codeOfWords]
    congr 1
    apply List.map_congr_left
    intro w hw
    rw [flatten_popLast_flatMap chBits MC.character_gap w (hws w hw).1, wordCode]
    have hcg : MC.character_gap = ([' '] : Str) := rfl
    rw [hcg]
    congr 1
    apply List.map_congr_left
    intro ch hch
    rw [chBits, flatten_popLast_flatMap (fun d => [[d]]) MC.bit_gap (patOf ch)
      (upper36_facts ch ((hws w hw).2 ch hch)).2.1]
    have hbg : MC.bit_gap = ([] : Str) := rfl
    rw [hbg]
    exact intercalate_nil_flatten_singletons (patOf ch)
  · intro l w hw
    show fsWord MC l (wordSig w) = _
    rw [fsWord_wordSig w (hws w hw) l]


/-- C4: `signal (from_signal (signal x)) = signal x` fails for the valid text
`"E"`: `signal "E" = "█"`, whose character set is not the two-element signal
alphabet, so `from_signal` rejects it with the assertion error and the
composite is undefined. -/
theorem C4_counterexample :
    identify_string_type MC (S ("E")) = .TEXT ∧
    signal MC (S ("E")) = S ("█") ∧
    from_signal MC (signal MC (S ("E"))) =
      .error (S ("Provided morse_signal-parameter expected to be only a signal string-type")) := by
  refine ⟨by decide, by decide, by rfl⟩

/-- C4 (amended): for a non-empty sequence of non-empty words over the
upper-case letters and digits, joined by single spaces, whose encoded form is
classified as Morse code and whose signal form is classified as a signal,
`from_signal (signal x)` succeeds and re-signalling its result gives back
`signal x`. -/
theorem C4_amended (ws : List Str) (hne : ws ≠ []) (hws : ∀ w ∈ ws, goodWord w)
    (hcode : identify_string_type MC (encode MC (List.intercalate [' '] ws)) =
      .MORSE_CODE)
    (hsig : identify_string_type MC (signal MC (List.intercalate [' '] ws)) =
      .MORSE_SIGNAL) :
    ∃ c', from_signal MC (signal MC (List.intercalate [' '] ws)) = .ok c' ∧
      signal MC c' = signal MC (List.intercalate [' '] ws) := by
  have henc : encode MC (List.intercalate [' '] ws) = codeOfWords ws := by
    rw [encode, identify_words_text ws hws]
    exact encodeText_words ws hne hws
  have hsigeq : signal MC (List.intercalate [' '] ws) = sigOfWords ws := by
    rw [signal, identify_words_text ws hws]
    show signalFromCode MC (encode MC (List.intercalate [' '] ws)) = _
    rw [henc]
    exact signalFromCode_codeOfWords ws hne hws
  rw [hsigeq] at hsig ⊢
  rw [henc] at hcode
  refine ⟨codeOfWords ws, ?_, ?_⟩
  · rw [from_signal, if_pos hsig, from_signal_core_sigOfWords ws hne hws]
  · rw [signal, hcode]
    show signalFromCode MC (codeOfWords ws) = _
    exact signalFromCode_codeOfWords ws hne hws

theorem C4_amended_witness :
    ∃ c', from_signal MC (signal MC (List.intercalate [' '] [S ("AB")])) = .ok c' ∧
      signal MC c' = signal MC (List.intercalate [' '] [S ("AB")]) :=
  C4_amended [S ("AB")] (by decide)
    (by
      intro w hw
      have hw' : w = S ("AB") := List.mem_singleton.mp hw
      subst hw'
      exact ⟨by decide, by decide⟩)
    (by decide) (by decide)

end MorseSpec
